import Mathlib

/-!
Verification of the crucible backup scheduler against its design document.

The Rust sources (src/app.rs, src/main.rs) are shallowly embedded:

* `std::time::Duration` values are whole nanosecond counts (`Nat`);
  `Duration` cannot represent negative spans, and `left - right` panics
  exactly when `right > left`.
* `chrono::DateTime<Local>` civil timestamps are a record of calendar
  fields; the `Local` zone is treated as a fixed offset (daylight-saving
  transitions are not modelled), so `Local.with_ymd_and_hms` succeeds
  exactly on in-range valid civil fields.
* directory names are lists of characters; the filesystem is a finite
  tree of directories and files.
* the worker thread's loop body is a pure transition function whose
  environment reads (configuration fields, measured elapsed time, the
  outcome of the backup I/O) are parameters.
-/

set_option maxRecDepth 16000

namespace Crucible

/-! ## Clamped duration arithmetic (src/app.rs 323-342) -/

/-- `Duration::from_secs_f64` at nanosecond granularity: a finite `f64`
second count (every finite `f64` is a rational number) in `[0, 2^64)` is
converted to nanoseconds rounded to the nearest nanosecond (the tie-to-even
of the exact bit-level algorithm is abstracted to round-half-up; no claim
depends on ties). A negative count or one at or above `2^64` seconds
(overflowing `Duration`) makes the function panic — `none` (NaN and
infinite arguments, which also panic, have no `ℚ` representative and sit
outside the model). -/
def fromSecsF64 (x : ℚ) : Option ℕ :=
  if 0 ≤ x ∧ x < 2 ^ 64 then some ((round (x * 1000000000) : ℤ).toNat) else none

/-- `duration_compare` (src/app.rs 325-342): `catch_unwind(|| left - right)`
yields the difference when `right ≤ left` and otherwise catches the panic of
`Duration`'s subtraction, in which case the result is built by
`Duration::from_secs_f64` from the `on_error` floor (negative floors and
`None` become `0.0`). That `from_secs_f64` call sits *outside* the
`catch_unwind`, so its panic — a supplied non-negative floor overflowing
`Duration` — escapes to the caller: `none`. -/
def duration_compare (left right : ℕ) (on_error : Option ℚ) : Option ℕ :=
  if right ≤ left then
    some (left - right)
  else
    fromSecsF64 (match on_error with
      | some val => if val < 0 then 0 else val
      | none => 0)

/-! ## The worker thread loop (src/main.rs 76-135) -/

/-- The four shared `AtomicBool` flags (src/main.rs 67-74). -/
structure Signals where
  exit_flag : Bool
  timer_change : Bool
  manual_backup : Bool
  worker_error_flag : Bool
  deriving Repr, DecidableEq

/-- Worker-local state carried from one loop iteration to the next
(`use_diff_time`, `diff_time`, src/main.rs 77-78). -/
structure WorkerState where
  use_diff_time : Bool
  diff_time : ℕ
  deriving Repr, DecidableEq

/-- Observable outcome of one worker-loop iteration. -/
structure IterResult where
  st : WorkerState
  sig : Signals
  /-- duration handed to `thread::park_timeout` (0 when the loop guard exits
  before sleeping). -/
  slept_for : ℕ
  /-- whether `back_up_files` was invoked during the iteration. -/
  ran_backup : Bool
  /-- whether the worker left its loop (guard failure or `return`). -/
  terminated : Bool
  deriving Repr, DecidableEq

/-- One iteration of the backup-worker loop (src/main.rs 79-134).
`freqHead` is `configuration.frequency` as read at the loop head (line 86),
`freqLater` the value read inside the early-wake branches (lines 111 and
128), `diff` the measured elapsed time, `backupOk` whether `back_up_files`
succeeds if invoked. Both `duration_compare` calls pass floor `None`, for
which `from_secs_f64(0.0)` never panics, so the `getD 0` default branch is
unreachable (`duration_compare_none_total`). -/
def workerIteration (st : Crucible.WorkerState) (sig : Signals)
    (freqHead freqLater diff : ℕ) (backupOk : Bool) : IterResult :=
  if sig.exit_flag then
    ⟨st, sig, 0, false, true⟩
  else
    let sleep_for := if st.use_diff_time then st.diff_time else freqHead
    let st1 : Crucible.WorkerState := ⟨false, st.diff_time⟩
    if sleep_for ≤ diff then
      if backupOk then ⟨st1, sig, sleep_for, true, false⟩
      else ⟨st1, { sig with worker_error_flag := true }, sleep_for, true, true⟩
    else if sig.timer_change then
      ⟨⟨true, (duration_compare diff freqLater none).getD 0⟩, sig, sleep_for, false, false⟩
    else if sig.manual_backup then
      let sig1 := { sig with manual_backup := false }
      if backupOk then
        ⟨⟨true, (duration_compare freqLater diff none).getD 0⟩, sig1, sleep_for, true, false⟩
      else ⟨st1, { sig1 with worker_error_flag := true }, sleep_for, true, true⟩
    else ⟨st1, sig, sleep_for, false, false⟩

/-! ## The input debounce gate (src/main.rs 40-52, 258-269) -/

/-- Rust's `as u128` applied to a value known to fit in `i64`
(two's-complement sign extension): `x mod 2^128` as a natural number. -/
def castU128 (x : ℤ) : ℕ := (x % (2 ^ 128)).toNat

/-- `is_debounced` (src/main.rs 40-52).  Key codes are abstracted to `Nat`;
local timestamps to whole-millisecond counts (`ℤ`), so that
`signed_duration_since(..).num_milliseconds()` is exact subtraction; the
tracker `HashMap` is a lookup function; `duration` is in nanoseconds and
`as_millis()` divides by 10^6.  The `i64` millisecond difference is cast
with `as u128` before the comparison. -/
def is_debounced (key : ℕ) (timestamp : ℤ) (tracker : ℕ → Option ℤ)
    (duration : ℕ) : Bool :=
  match tracker key with
  | some last => decide (duration / 1000000 ≤ castU128 (timestamp - last))
  | none => true

/-- The main-screen use of the gate (src/main.rs 260-266): evaluate
`is_debounced`, then insert `now` for the key unconditionally (before the
accept/reject decision is acted on). -/
def mainScreenDebounce (tracker : ℕ → Option ℤ) (key : ℕ) (now : ℤ)
    (duration : ℕ) : Bool × (ℕ → Option ℤ) :=
  (is_debounced key now tracker duration,
   fun k => if k = key then some now else tracker k)

/-- Maximal value of `Duration::as_millis()`:
`Duration::MAX = (2^64 - 1) s + 999999999 ns`. -/
def maxDurationMillis : ℕ := ((2 ^ 64 - 1) * 1000000000 + 999999999) / 1000000

/-! ## Snapshot directory names (src/app.rs 388-427 and 527-537)

Directory names are lists of characters. -/

/-- A directory-name string. -/
abbrev Name := List Char

/-- A civil local timestamp truncated to whole seconds
(`chrono::DateTime<Local>`; the `Local` zone is modelled as a fixed offset,
so civil fields determine the instant and `with_ymd_and_hms` has a unique
result exactly on valid in-range fields). -/
structure Timestamp where
  year : ℤ
  month : ℕ
  day : ℕ
  hour : ℕ
  minute : ℕ
  second : ℕ
  deriving Repr, DecidableEq

/-- Proleptic-Gregorian leap year, as chrono computes it. -/
def isLeapYear (y : ℤ) : Bool :=
  y % 4 == 0 && (y % 100 != 0 || y % 400 == 0)

/-- Days in a month of the proleptic-Gregorian calendar. -/
def daysInMonth (y : ℤ) (m : ℕ) : ℕ :=
  if m = 2 then (if isLeapYear y then 29 else 28)
  else if m = 4 ∨ m = 6 ∨ m = 9 ∨ m = 11 then 30
  else 31

/-- The success condition of `Local.with_ymd_and_hms(..)`: chrono's year
range (±262144 packed year bits), a calendar-valid date and in-range clock
fields.  (`Local` fixed-offset: no daylight-saving gap or fold.) -/
def validTimestamp (t : Timestamp) : Bool :=
  decide (-262144 ≤ t.year ∧ t.year ≤ 262143 ∧ 1 ≤ t.month ∧ t.month ≤ 12 ∧
    1 ≤ t.day ∧ t.day ≤ daysInMonth t.year t.month ∧
    t.hour < 24 ∧ t.minute < 60 ∧ t.second < 60)

/-- Rust's `as i32` applied to a `u32` value: two's-complement
reinterpretation. -/
def castI32 (n : ℕ) : ℤ := if n < 2 ^ 31 then (n : ℤ) else (n : ℤ) - 2 ^ 32

/-- `s.split(['-', ' '])` (src/app.rs 397): split at every `-` or space,
keeping empty tokens, exactly as Rust's `str::split` does
(`"".split` yields one empty token). -/
def splitName : Name → List Name
  | [] => [[]]
  | c :: cs =>
    if c = '-' ∨ c = ' ' then [] :: splitName cs
    else
      match splitName cs with
      | [] => [[c]]
      | t :: ts => (c :: t) :: ts

/-- Numeric value of an ASCII digit character. -/
def digitVal (c : Char) : ℕ := c.toNat - 48

/-- ASCII digit character for a value below 10. -/
def digitChar (d : ℕ) : Char := Char.ofNat (48 + d)

/-- Horner evaluation of a digit string, the accumulator loop of Rust's
`u32::from_str`. -/
def tokenVal (l : Name) : ℕ := l.foldl (fun acc c => acc * 10 + digitVal c) 0

/-- The digit phase of `str::parse::<u32>()`: at least one character, all
ASCII digits, value below `2^32` (larger values overflow and the parse
fails). -/
def parseU32Digits (digits : Name) : Option ℕ :=
  if digits.isEmpty then none
  else if digits.all Char.isDigit then
    if tokenVal digits < 2 ^ 32 then some (tokenVal digits) else none
  else none

/-- `str::parse::<u32>()` (src/app.rs 398): an optional leading `+`
(unsigned parses never accept `-`), then digits. -/
def parseU32 (s : Name) : Option ℕ :=
  parseU32Digits (if s.head? = some '+' then s.tail else s)

/-- Outcome of decoding one directory name inside `get_backups_sorted`. -/
inductive DecodeOutcome where
  /-- the entry is silently ignored (`continue`). -/
  | skip
  /-- `Local.with_ymd_and_hms(..).unwrap()` panicked: the whole listing
  aborts. -/
  | unwrapAbort
  /-- the name decodes to a timestamp. -/
  | ok (t : Timestamp)
  deriving Repr, DecidableEq

/-- The token check of the decoder: anything other than exactly 6
successfully parsed tokens is a `continue` (`skip`); 6 parsed fields are
handed to `with_ymd_and_hms(..).unwrap()`, which panics on an invalid
date-time (`unwrapAbort`).  The year token is cast `as i32`. -/
def decodeTokens : List (Option ℕ) → DecodeOutcome
  | [some y, some mo, some d, some h, some mi, some sec] =>
    if validTimestamp ⟨castI32 y, mo, d, h, mi, sec⟩ then
      .ok ⟨castI32 y, mo, d, h, mi, sec⟩
    else .unwrapAbort
  | _ => .skip

/-- Per-name decoding performed by `get_backups_sorted`
(src/app.rs 394-418): split on `-` and space, parse every token as `u32`,
then apply the token check. -/
def decodeName (s : Name) : DecodeOutcome :=
  decodeTokens ((splitName s).map parseU32)

/-- Decimal digit characters of `n`, most significant first (structural
fuel so the definition evaluates in the kernel). -/
def natCharsAux : ℕ → ℕ → Name
  | 0, _ => []
  | _ + 1, 0 => []
  | fuel + 1, n + 1 => natCharsAux fuel ((n + 1) / 10) ++ [digitChar ((n + 1) % 10)]

/-- Decimal digit characters of `n`, most significant first (empty for 0;
always used zero-padded below). -/
def natChars (n : ℕ) : Name := natCharsAux (n + 1) n

/-- Zero-pad a digit string on the left to `len` characters. -/
def padLeft (len : ℕ) (s : Name) : Name :=
  List.replicate (len - s.length) '0' ++ s

/-- `%m`/`%d`/`%H`/`%M`/`%S`: two-digit zero-padded field. -/
def pad2 (n : ℕ) : Name := padLeft 2 (natChars n)

/-- Four-digit zero-padded field. -/
def pad4 (n : ℕ) : Name := padLeft 4 (natChars n)

/-- `%Y`: the proleptic-Gregorian year zero-padded to 4 digits; chrono
prints an explicit sign for years outside `0..=9999` (`-` below 0 with the
absolute value zero-padded, `+` above 9999). -/
def formatYear (y : ℤ) : Name :=
  if y < 0 then '-' :: padLeft 4 (natChars (-y).toNat)
  else if y ≤ 9999 then pad4 y.toNat
  else '+' :: natChars y.toNat

/-- `now.format("%Y-%m-%d %H-%M-%S")` (src/app.rs 530-531), the snapshot
directory name for timestamp `t`. -/
def encodeName (t : Timestamp) : Name :=
  formatYear t.year ++ '-' :: pad2 t.month ++ '-' :: pad2 t.day ++
    ' ' :: pad2 t.hour ++ '-' :: pad2 t.minute ++ '-' :: pad2 t.second

/-! ## Filesystem model

Paths are lists of component names.  `PathBuf::join` on the relative
target strings splits them into components, so targets are modelled at
component level. -/

/-- A filesystem path, relative to the modelled root. -/
abbrev FsPath := List Name

/-- A filesystem tree: regular files carry opaque content, directories an
association list of uniquely-named children.  `read_dir` iteration order is
unspecified in Rust; the model uses the list order (new children are
appended). -/
inductive Node where
  | file (data : ℕ)
  | dir (children : List (Name × Node))

instance : Nonempty Node := ⟨.dir []⟩

instance : Nonempty (Name × Node) := ⟨([], .dir [])⟩

/-- Child lookup in a directory's entry list. -/
def getChild : List (Name × Node) → Name → Option Node
  | [], _ => none
  | (m, x) :: rest, n => if m = n then some x else getChild rest n

/-- Replace the child named `n` (appending at the end if absent). -/
def setChild : List (Name × Node) → Name → Node → List (Name × Node)
  | [], n, node => [(n, node)]
  | (m, x) :: rest, n, node =>
    if m = n then (m, node) :: rest else (m, x) :: setChild rest n node

/-- Remove every child named `n`. -/
def delChild : List (Name × Node) → Name → List (Name × Node)
  | [], _ => []
  | (m, x) :: rest, n =>
    if m = n then delChild rest n else (m, x) :: delChild rest n

/-- Resolve a path to the node it names, if any. -/
def lookup : Node → FsPath → Option Node
  | node, [] => some node
  | .file _, _ :: _ => none
  | .dir ch, n :: rest =>
    match getChild ch n with
    | none => none
    | some child => lookup child rest

/-- `Path::is_dir` — the path exists and names a directory. -/
def isDir (fs : Node) (p : FsPath) : Bool :=
  match lookup fs p with
  | some (.dir _) => true
  | _ => false

/-- `Path::is_file` — the path exists and names a regular file. -/
def isFile (fs : Node) (p : FsPath) : Bool :=
  match lookup fs p with
  | some (.file _) => true
  | _ => false

/-- `fs::create_dir_all`: create every missing directory along the path;
fail (`none`) when an existing component is a regular file. -/
def createDirAll : Node → FsPath → Option Node
  | .dir ch, [] => some (.dir ch)
  | .file _, _ => none
  | .dir ch, n :: rest =>
    let child := match getChild ch n with
      | some c => c
      | none => .dir []
    match createDirAll child rest with
    | none => none
    | some c' => some (.dir (setChild ch n c'))

/-- The destination side of `fs::copy`: write file content at the path;
fail when the destination exists as a directory, when a parent is missing
or is a file, or when the path is the root. -/
def writeFile : Node → FsPath → ℕ → Option Node
  | _, [], _ => none
  | .file _, _ :: _, _ => none
  | .dir ch, [n], data =>
    match getChild ch n with
    | some (.dir _) => none
    | _ => some (.dir (setChild ch n (.file data)))
  | .dir ch, n :: rest, data =>
    match getChild ch n with
    | none => none
    | some child =>
      match writeFile child rest data with
      | none => none
      | some c' => some (.dir (setChild ch n c'))

/-- `fs::remove_dir_all`: recursively delete the directory named by the
path; fail when the path is missing, names a file, or is the root. -/
def removeDirAll : Node → FsPath → Option Node
  | _, [] => none
  | .file _, _ :: _ => none
  | .dir ch, [n] =>
    match getChild ch n with
    | some (.dir _) => some (.dir (delChild ch n))
    | _ => none
  | .dir ch, n :: rest =>
    match getChild ch n with
    | none => none
    | some child =>
      match removeDirAll child rest with
      | none => none
      | some c' => some (.dir (setChild ch n c'))

/-- Whether a node is a directory (`file_type().is_dir()`). -/
def isDirNode : Node → Bool
  | .dir _ => true
  | .file _ => false

/-- `src.file_name()` fallback used by `copy_dir_all`
(`unwrap_or("unknown")`, src/app.rs 369-372). -/
def unknownName : Name := 'u' :: 'n' :: 'k' :: 'n' :: 'o' :: 'w' :: 'n' :: []

/-- Errors of the copy engine (all `std::io::Error` in Rust; the model
distinguishes the operation that failed). -/
inductive CopyErr where
  /-- `create_dir_all` failed. -/
  | createDirFailed (p : FsPath)
  /-- the source path does not exist (`read_dir`'s not-found error). -/
  | notFound (p : FsPath)
  /-- `fs::copy` failed (destination blocked). -/
  | copyFailed (p : FsPath)
  deriving Repr, DecidableEq

/-- The entry loop of `copy_dir_all` (src/app.rs 375-383) on the entry list
read from the source directory.  The Rust code re-reads each source subtree
from disk inside the recursive `copy_dir_all` call; every call site copies
between disjoint trees, so the model recurses on the entries captured at
the read, which stay in agreement with the disk.  For a directory entry the
recursive `copy_dir_all(entry.path(), dst.join(name))` is inlined: its
`create_dir_all` runs first, then its own entry loop. -/
def copyEntries (fs : Node) (entries : List (Name × Node)) (src dst : FsPath) :
    Node × Option CopyErr :=
  match entries with
  | [] => (fs, none)
  | (n, .dir ch) :: rest =>
    match createDirAll fs (dst ++ [n]) with
    | none => (fs, some (.createDirFailed (dst ++ [n])))
    | some fs1 =>
      match copyEntries fs1 ch (src ++ [n]) (dst ++ [n]) with
      | (fs2, some e) => (fs2, some e)
      | (fs2, none) => copyEntries fs2 rest src dst
  | (n, .file data) :: rest =>
    match writeFile fs (dst ++ [n]) data with
    | none => (fs, some (.copyFailed (dst ++ [n])))
    | some fs' => copyEntries fs' rest src dst

/-- `copy_dir_all(src, dst)` (src/app.rs 364-386): `create_dir_all(&dst)`
first, then inspect the source: a file is copied to
`dst/src.file_name()`, a directory's entries are mirrored, a missing
source fails with the not-found error of `read_dir`. -/
def copyDirAll (fs : Node) (src dst : FsPath) : Node × Option CopyErr :=
  match createDirAll fs dst with
  | none => (fs, some (.createDirFailed dst))
  | some fs1 =>
    match lookup fs1 src with
    | some (.file data) =>
      let fname := match src.getLast? with
        | some n => n
        | none => unknownName
      match writeFile fs1 (dst ++ [fname]) data with
      | none => (fs1, some (.copyFailed (dst ++ [fname])))
      | some fs2 => (fs2, none)
    | some (.dir entries) => copyEntries fs1 entries src dst
    | none => (fs1, some (.notFound src))

/-- The configuration record (src/app.rs 77-83).  `path` is the
destination root; `frequency` a duration in nanoseconds; `targets` the
relative (source, destination) path pairs in component form; `max_backups`
the retention cap (`u8` in Rust — the claims quantify over its value). -/
structure Configuration where
  path : FsPath
  frequency : ℕ
  targets : List (FsPath × FsPath)
  max_backups : ℕ

/-- Failures of `get_backups_sorted`. -/
inductive ListErr where
  /-- a `read_dir`/`file_type` I/O error (destination missing or a file). -/
  | ioError
  /-- the `.unwrap()` of `with_ymd_and_hms` panicked on an undecodable
  date: the listing aborts. -/
  | unwrapAbort
  deriving Repr, DecidableEq

/-- The entry loop of `get_backups_sorted` (src/app.rs 390-422): skip
non-directories, decode each directory name (`skip` names are ignored,
`unwrapAbort` aborts the whole listing), collect `(timestamp, path)` in
iteration order. -/
def collectBackups (cfgPath : FsPath) :
    List (Name × Node) → Except ListErr (List (Timestamp × FsPath))
  | [] => .ok []
  | (n, child) :: rest =>
    if isDirNode child then
      match decodeName n with
      | .skip => collectBackups cfgPath rest
      | .unwrapAbort => .error .unwrapAbort
      | .ok t =>
        match collectBackups cfgPath rest with
        | .error e => .error e
        | .ok l => .ok ((t, cfgPath ++ [n]) :: l)
    else collectBackups cfgPath rest

/-- Chronological comparison key of a decoded timestamp: a mixed-radix
linearisation that is strictly monotone in `DateTime` order on valid civil
fields (the `a.0.cmp(&b.0)` of the sort). -/
def Timestamp.key (t : Timestamp) : ℤ :=
  ((((t.year * 13 + t.month) * 32 + t.day) * 24 + t.hour) * 60 + t.minute) * 60 + t.second

/-- The sort order of `dirs.sort_by(|a, b| a.0.cmp(&b.0))`. -/
def tsLE (a b : Timestamp × FsPath) : Prop := a.1.key ≤ b.1.key

instance : DecidableRel tsLE := fun a b =>
  inferInstanceAs (Decidable (a.1.key ≤ b.1.key))

/-- `sort_by` is a stable sort; modelled with insertion sort (also
stable). -/
def sortBackups (l : List (Timestamp × FsPath)) : List (Timestamp × FsPath) :=
  List.insertionSort tsLE l

/-- `get_backups_sorted` (src/app.rs 388-427): read the destination root,
collect decodable snapshot directories, sort ascending by timestamp. -/
def get_backups_sorted (fs : Node) (config : Configuration) :
    Except ListErr (List (Timestamp × FsPath)) :=
  match lookup fs config.path with
  | some (.dir entries) =>
    match collectBackups config.path entries with
    | .error e => .error e
    | .ok dirs => .ok (sortBackups dirs)
  | _ => .error .ioError

/-- Failures of `remove_old_backups`. -/
inductive PruneErr where
  /-- propagated `get_backups_sorted` failure. -/
  | listFailed (e : ListErr)
  /-- `remove_dir_all` failed (`BackupError::RemoveFolderError`). -/
  | removeFailed (p : FsPath)
  deriving Repr, DecidableEq

/-- Result of a prune: final tree, the paths removed (in removal order),
and the error that stopped it, if any. -/
structure PruneResult where
  fs : Node
  removed : List FsPath
  err : Option PruneErr

/-- The deletion loop of `remove_old_backups` (src/app.rs 432-437) over
the surplus prefix of the sorted listing: delete in ascending order,
stopping at the first failure. -/
def removeLoop (fs : Node) : List (Timestamp × FsPath) → PruneResult
  | [] => ⟨fs, [], none⟩
  | (_, p) :: rest =>
    match removeDirAll fs p with
    | none => ⟨fs, [], some (.removeFailed p)⟩
    | some fs' =>
      let r := removeLoop fs' rest
      ⟨r.fs, p :: r.removed, r.err⟩

/-- `remove_old_backups` (src/app.rs 429-440): list snapshots sorted; when
there are more than `max_backups`, delete the oldest
`len - max_backups` in ascending order. -/
def remove_old_backups (fs : Node) (config : Configuration) : PruneResult :=
  match get_backups_sorted fs config with
  | .error e => ⟨fs, [], some (.listFailed e)⟩
  | .ok dirs =>
    if config.max_backups < dirs.length then
      removeLoop fs (dirs.take (dirs.length - config.max_backups))
    else ⟨fs, [], none⟩

/-- Failures of `back_up_files` (`BackupError`). -/
inductive BackupErr where
  | copy (e : CopyErr)
  | prune (e : PruneErr)
  deriving Repr, DecidableEq

/-- The target loop of `back_up_files` (src/app.rs 532-534): mirror-copy
each `(source-relative, destination-relative)` pair into the new snapshot
directory, propagating the first error. -/
def copyTargets (fs : Node) (source newDir : FsPath) :
    List (FsPath × FsPath) → Node × Option CopyErr
  | [] => (fs, none)
  | (s, d) :: rest =>
    match copyDirAll fs (source ++ s) (newDir ++ d) with
    | (fs', some e) => (fs', some e)
    | (fs', none) => copyTargets fs' source newDir rest

/-- `back_up_files` (src/app.rs 527-537): compute the timestamped snapshot
directory name from `now`, copy every target pair into it, then prune; the
first copy error aborts the whole operation, and pruning runs only after
every pair copied. -/
def back_up_files (fs : Node) (source : FsPath) (config : Configuration)
    (now : Timestamp) : Node × Except BackupErr FsPath :=
  match copyTargets fs source (config.path ++ [encodeName now]) config.targets with
  | (fs', some e) => (fs', .error (.copy e))
  | (fs', none) =>
    match (remove_old_backups fs' config).err with
    | some e => ((remove_old_backups fs' config).fs, .error (.prune e))
    | none => ((remove_old_backups fs' config).fs, .ok (config.path ++ [encodeName now]))

/-- What `read_dir` plus `file_type` observes of one entry: its name and
whether it is a directory. -/
def entrySpec (e : Name × Node) : Name × Bool := (e.1, isDirNode e.2)

/-- The name/type spectrum of a directory's entries: what `read_dir` plus
`file_type` observes, and all that the snapshot listing depends on. -/
def childSpecs (fs : Node) (p : FsPath) : Option (List (Name × Bool)) :=
  match lookup fs p with
  | some (.dir ch) => some (ch.map entrySpec)
  | _ => none

/-- `collectBackups` seen at the level of entry specs. -/
def specCollect (cfgPath : FsPath) :
    List (Name × Bool) → Except ListErr (List (Timestamp × FsPath))
  | [] => .ok []
  | (n, isdir) :: rest =>
    if isdir then
      match decodeName n with
      | .skip => specCollect cfgPath rest
      | .unwrapAbort => .error .unwrapAbort
      | .ok t =>
        match specCollect cfgPath rest with
        | .error e => .error e
        | .ok l => .ok ((t, cfgPath ++ [n]) :: l)
    else specCollect cfgPath rest

/-- `delChild` at spec level. -/
def eraseName : List (Name × Bool) → Name → List (Name × Bool)
  | [], _ => []
  | (n, b) :: rest, m =>
    if n = m then eraseName rest m else (n, b) :: eraseName rest m

/-! ## Supporting lemmas -/

theorem fromSecsF64_zero : fromSecsF64 0 = some 0 := by
  norm_num [fromSecsF64]

theorem duration_compare_none_total (a b : ℕ) :
    duration_compare a b none = some (a - b) := by
  unfold duration_compare
  by_cases h : b ≤ a
  · rw [if_pos h]
  · rw [if_neg h]
    show fromSecsF64 0 = some (a - b)
    rw [fromSecsF64_zero, Nat.sub_eq_zero_of_le (le_of_not_le h)]

theorem castU128_nonneg {x : ℤ} (h0 : 0 ≤ x) (h1 : x < 2 ^ 128) :
    (castU128 x : ℤ) = x := by
  unfold castU128
  rw [Int.emod_eq_of_lt h0 h1, Int.toNat_of_nonneg h0]

theorem castU128_neg {x : ℤ} (h0 : x < 0) (h1 : -(2 ^ 128) < x) :
    (castU128 x : ℤ) = 2 ^ 128 + x := by
  have hx : x % (2 : ℤ) ^ 128 = 2 ^ 128 + x := by
    have h2 : (2 ^ 128 + x) % (2 : ℤ) ^ 128 = x % (2 : ℤ) ^ 128 := by
      have h3 := Int.add_mul_emod_self_left (a := x) (b := (2 : ℤ) ^ 128) (c := 1)
      rw [mul_one, add_comm] at h3
      exact h3
    rw [← h2, Int.emod_eq_of_lt (by linarith) (by linarith)]
  have hnn : (0 : ℤ) ≤ 2 ^ 128 + x := by linarith
  unfold castU128
  rw [hx, Int.toNat_of_nonneg hnn]

/-! ## Lemmas on directory-name encoding and decoding -/

theorem splitName_sep (c : Char) (cs : Name) (h : c = '-' ∨ c = ' ') :
    splitName (c :: cs) = [] :: splitName cs := by
  conv_lhs => unfold splitName
  rw [if_pos h]

theorem splitName_notsep (c : Char) (cs : Name) (h : ¬(c = '-' ∨ c = ' ')) :
    splitName (c :: cs) =
      match splitName cs with
      | [] => [[c]]
      | t :: ts => (c :: t) :: ts := by
  conv_lhs => unfold splitName
  rw [if_neg h]

theorem splitName_sepfree (a : Name) (ha : ∀ c ∈ a, ¬(c = '-' ∨ c = ' ')) :
    splitName a = [a] := by
  induction a with
  | nil => rfl
  | cons c cs ih =>
    have hc := ha c (by simp)
    have hcs : ∀ x ∈ cs, ¬(x = '-' ∨ x = ' ') := fun x hx => ha x (by simp [hx])
    rw [splitName_notsep c cs hc, ih hcs]

theorem splitName_append (a : Name) (c0 : Char) (rest : Name)
    (ha : ∀ c ∈ a, ¬(c = '-' ∨ c = ' ')) (hc0 : c0 = '-' ∨ c0 = ' ') :
    splitName (a ++ c0 :: rest) = a :: splitName rest := by
  induction a with
  | nil =>
    simp only [List.nil_append]
    exact splitName_sep c0 rest hc0
  | cons c cs ih =>
    have hc := ha c (by simp)
    have hcs : ∀ x ∈ cs, ¬(x = '-' ∨ x = ' ') := fun x hx => ha x (by simp [hx])
    simp only [List.cons_append]
    rw [splitName_notsep c _ hc, ih hcs]

theorem digitChar_isDigit {d : ℕ} (hd : d < 10) : (digitChar d).isDigit = true := by
  interval_cases d <;> decide

theorem digitChar_not_sep {d : ℕ} (hd : d < 10) :
    ¬(digitChar d = '-' ∨ digitChar d = ' ') := by
  interval_cases d <;> decide

theorem digitVal_digitChar {d : ℕ} (hd : d < 10) : digitVal (digitChar d) = d := by
  interval_cases d <;> decide

theorem natCharsAux_eq (fuel n : ℕ) (h : n ≤ fuel) :
    natCharsAux (fuel + 1) n = ((Nat.digits 10 n).reverse).map digitChar := by
  induction fuel generalizing n with
  | zero =>
    interval_cases n
    simp [natCharsAux, Nat.digits_zero]
  | succ f ih =>
    cases n with
    | zero => simp [natCharsAux, Nat.digits_zero]
    | succ m =>
      have hdiv : (m + 1) / 10 ≤ f := by
        have h1 : (m + 1) / 10 < m + 1 := Nat.div_lt_self (Nat.succ_pos m) (by norm_num)
        omega
      unfold natCharsAux
      rw [ih _ hdiv, Nat.digits_def' (by norm_num : (1 : ℕ) < 10) (Nat.succ_pos m)]
      simp

theorem natChars_eq (n : ℕ) :
    natChars n = ((Nat.digits 10 n).reverse).map digitChar :=
  natCharsAux_eq n n le_rfl

theorem natChars_mem_digit {n : ℕ} {c : Char} (hc : c ∈ natChars n) :
    ∃ d, d < 10 ∧ c = digitChar d := by
  rw [natChars_eq] at hc
  obtain ⟨d, hd, rfl⟩ := List.mem_map.mp hc
  exact ⟨d, Nat.digits_lt_base (by norm_num) (List.mem_reverse.mp hd), rfl⟩

theorem natChars_ne_nil {n : ℕ} (h : n ≠ 0) : natChars n ≠ [] := by
  rw [natChars_eq]
  simp [Nat.digits_ne_nil_iff_ne_zero, h]

theorem padLeft_mem {k : ℕ} {l : Name} {c : Char} (hc : c ∈ padLeft k l) :
    c = '0' ∨ c ∈ l := by
  rcases List.mem_append.mp hc with h | h
  · exact Or.inl (List.eq_of_mem_replicate h)
  · exact Or.inr h

theorem padLeft_natChars_digit {k n : ℕ} {c : Char} (hc : c ∈ padLeft k (natChars n)) :
    c.isDigit = true := by
  rcases padLeft_mem hc with rfl | h
  · decide
  · obtain ⟨d, hd, rfl⟩ := natChars_mem_digit h
    exact digitChar_isDigit hd

theorem padLeft_natChars_not_sep {k n : ℕ} {c : Char} (hc : c ∈ padLeft k (natChars n)) :
    ¬(c = '-' ∨ c = ' ') := by
  rcases padLeft_mem hc with rfl | h
  · decide
  · obtain ⟨d, hd, rfl⟩ := natChars_mem_digit h
    exact digitChar_not_sep hd

theorem padLeft_ne_nil {k : ℕ} {l : Name} (hk : 1 ≤ k) : padLeft k l ≠ [] := by
  unfold padLeft
  intro h
  rcases List.append_eq_nil.mp h with ⟨h1, h2⟩
  subst h2
  have h3 := congrArg List.length h1
  simp at h3
  omega

theorem foldl_digitVal (l : Name) (acc : ℕ) :
    l.foldl (fun a c => a * 10 + digitVal c) acc
      = acc * 10 ^ l.length + Nat.ofDigits 10 ((l.map digitVal).reverse) := by
  induction l generalizing acc with
  | nil => simp
  | cons c cs ih =>
    simp only [List.foldl_cons, List.map_cons, List.reverse_cons, List.length_cons]
    rw [ih, Nat.ofDigits_append]
    simp only [Nat.ofDigits_singleton, List.length_reverse, List.length_map]
    ring

theorem ofDigits_replicate_zero (k : ℕ) :
    Nat.ofDigits 10 (List.replicate k 0) = 0 := by
  induction k with
  | zero => rfl
  | succ m ih => simp [List.replicate, Nat.ofDigits_cons, ih]

theorem tokenVal_padLeft_natChars (k n : ℕ) : tokenVal (padLeft k (natChars n)) = n := by
  unfold tokenVal padLeft
  rw [foldl_digitVal]
  have h0 : digitVal '0' = 0 := by decide
  have hmap : (List.replicate (k - (natChars n).length) '0' ++ natChars n).map digitVal
      = List.replicate (k - (natChars n).length) 0 ++ (Nat.digits 10 n).reverse := by
    rw [List.map_append, List.map_replicate, h0, natChars_eq, List.map_map]
    congr 1
    have hcong : (Nat.digits 10 n).reverse.map (digitVal ∘ digitChar)
        = (Nat.digits 10 n).reverse.map id := by
      apply List.map_congr_left
      intro d hd
      exact digitVal_digitChar (Nat.digits_lt_base (by norm_num) (List.mem_reverse.mp hd))
    rw [hcong, List.map_id]
  rw [hmap, List.reverse_append, List.reverse_reverse, List.reverse_replicate,
    Nat.ofDigits_append, Nat.ofDigits_digits, ofDigits_replicate_zero]
  simp

theorem tokenVal_natChars (n : ℕ) : tokenVal (natChars n) = n := by
  have h := tokenVal_padLeft_natChars 0 n
  simpa [padLeft] using h

theorem parseU32Digits_eval (l : Name) (hne : l ≠ [])
    (hd : ∀ c ∈ l, c.isDigit = true) (hlt : tokenVal l < 2 ^ 32) :
    parseU32Digits l = some (tokenVal l) := by
  unfold parseU32Digits
  rw [if_neg (by simpa [List.isEmpty_iff] using hne)]
  rw [if_pos (by rw [List.all_eq_true]; exact hd)]
  rw [if_pos hlt]

theorem parseU32_all_digits (l : Name) (hne : l ≠ [])
    (hd : ∀ c ∈ l, c.isDigit = true) (hlt : tokenVal l < 2 ^ 32) :
    parseU32 l = some (tokenVal l) := by
  unfold parseU32
  have hhead : ¬(l.head? = some '+') := by
    cases l with
    | nil => simp
    | cons c cs =>
      simp only [List.head?, Option.some.injEq]
      intro hc
      subst hc
      exact absurd (hd '+' (by simp)) (by decide)
  rw [if_neg hhead]
  exact parseU32Digits_eval l hne hd hlt

theorem parseU32_padLeft (k n : ℕ) (hk : 1 ≤ k) (hn : n < 2 ^ 32) :
    parseU32 (padLeft k (natChars n)) = some n := by
  have h := parseU32_all_digits (padLeft k (natChars n)) (padLeft_ne_nil hk)
    (fun c hc => padLeft_natChars_digit hc)
    (by rw [tokenVal_padLeft_natChars]; exact hn)
  rwa [tokenVal_padLeft_natChars] at h

theorem parseU32_pad2 (n : ℕ) (hn : n < 2 ^ 32) : parseU32 (pad2 n) = some n := by
  unfold pad2
  exact parseU32_padLeft 2 n (by norm_num) hn

theorem formatYear_parse {y : ℤ} (h0 : 0 ≤ y) (h1 : y ≤ 262143) :
    parseU32 (formatYear y) = some y.toNat := by
  unfold formatYear
  rw [if_neg (not_lt.mpr h0)]
  by_cases hy : y ≤ 9999
  · rw [if_pos hy]
    unfold pad4
    exact parseU32_padLeft 4 y.toNat (by norm_num) (by omega)
  · rw [if_neg hy]
    unfold parseU32
    rw [if_pos (show ('+' :: natChars y.toNat).head? = some '+' from rfl)]
    have hne : natChars y.toNat ≠ [] := natChars_ne_nil (by omega)
    have hd : ∀ c ∈ natChars y.toNat, c.isDigit = true := by
      intro c hc
      obtain ⟨d, hdlt, rfl⟩ := natChars_mem_digit hc
      exact digitChar_isDigit hdlt
    have h := parseU32Digits_eval (natChars y.toNat) hne hd
      (by rw [tokenVal_natChars]; omega)
    rw [tokenVal_natChars] at h
    exact h

theorem castI32_small {n : ℕ} (h : n < 2 ^ 31) : castI32 n = (n : ℤ) := by
  unfold castI32
  rw [if_pos h]

theorem pad2_not_sep {n : ℕ} {c : Char} (hc : c ∈ pad2 n) : ¬(c = '-' ∨ c = ' ') := by
  unfold pad2 at hc
  exact padLeft_natChars_not_sep hc

theorem formatYear_not_sep {y : ℤ} (h0 : 0 ≤ y) {c : Char} (hc : c ∈ formatYear y) :
    ¬(c = '-' ∨ c = ' ') := by
  unfold formatYear at hc
  rw [if_neg (not_lt.mpr h0)] at hc
  by_cases hy : y ≤ 9999
  · rw [if_pos hy] at hc
    unfold pad4 at hc
    exact padLeft_natChars_not_sep hc
  · rw [if_neg hy] at hc
    rcases List.mem_cons.mp hc with rfl | h
    · decide
    · obtain ⟨d, hd, rfl⟩ := natChars_mem_digit h
      exact digitChar_not_sep hd

theorem splitName_encodeName {t : Timestamp} (hy : 0 ≤ t.year) :
    splitName (encodeName t) =
      [formatYear t.year, pad2 t.month, pad2 t.day, pad2 t.hour, pad2 t.minute,
        pad2 t.second] := by
  unfold encodeName
  simp only [List.cons_append, List.append_assoc]
  rw [splitName_append _ _ _ (fun c hc => formatYear_not_sep hy hc) (Or.inl rfl)]
  rw [splitName_append _ _ _ (fun c hc => pad2_not_sep hc) (Or.inl rfl)]
  rw [splitName_append _ _ _ (fun c hc => pad2_not_sep hc) (Or.inr rfl)]
  rw [splitName_append _ _ _ (fun c hc => pad2_not_sep hc) (Or.inl rfl)]
  rw [splitName_append _ _ _ (fun c hc => pad2_not_sep hc) (Or.inl rfl)]
  rw [splitName_sepfree _ (fun c hc => pad2_not_sep hc)]

/-! ## Filesystem lemmas -/

theorem getChild_setChild_self (ch : List (Name × Node)) (n : Name) (node : Node) :
    getChild (setChild ch n node) n = some node := by
  induction ch with
  | nil => simp [setChild, getChild]
  | cons e rest ih =>
    obtain ⟨m, x⟩ := e
    by_cases hmn : m = n
    · subst hmn
      simp [setChild, getChild]
    · simp [setChild, getChild, hmn, ih]

theorem getChild_setChild_ne (ch : List (Name × Node)) (n : Name) (node : Node)
    (m : Name) (h : m ≠ n) :
    getChild (setChild ch n node) m = getChild ch m := by
  induction ch with
  | nil => simp [setChild, getChild, Ne.symm h]
  | cons e rest ih =>
    obtain ⟨m', x⟩ := e
    by_cases hm' : m' = n
    · subst hm'
      simp [setChild, getChild, Ne.symm h]
    · simp only [setChild, if_neg hm', getChild]
      by_cases hm'' : m' = m
      · simp [hm'']
      · simp [hm'', ih]

theorem lookup_dir_cons (ch : List (Name × Node)) (n : Name) (rest : FsPath) :
    lookup (.dir ch) (n :: rest) =
      match getChild ch n with
      | none => none
      | some child => lookup child rest := by
  conv_lhs => unfold lookup

theorem createDirAll_dir_cons (ch : List (Name × Node)) (n : Name) (rest : FsPath) :
    createDirAll (.dir ch) (n :: rest) =
      match createDirAll
          (match getChild ch n with | some c => c | none => .dir []) rest with
      | none => none
      | some c' => some (.dir (setChild ch n c')) := by
  conv_lhs => unfold createDirAll

theorem createDirAll_lookup_outside :
    ∀ (w : FsPath) (fs fs' : Node), createDirAll fs w = some fs' →
      ∀ p, ¬(p <+: w) → lookup fs' p = lookup fs p := by
  intro w
  induction w with
  | nil =>
    intro fs fs' h p hp
    cases fs with
    | file data => simp [createDirAll] at h
    | dir ch =>
      simp only [createDirAll, Option.some.injEq] at h
      subst h
      rfl
  | cons n rest ih =>
    intro fs fs' h p hp
    cases fs with
    | file data => simp [createDirAll] at h
    | dir ch =>
      rw [createDirAll_dir_cons] at h
      cases hc' : createDirAll
          (match getChild ch n with | some c => c | none => .dir []) rest with
      | none => rw [hc'] at h; exact absurd h (by simp)
      | some c' =>
        rw [hc'] at h
        simp only [Option.some.injEq] at h
        subst h
        cases p with
        | nil => exact absurd List.nil_prefix hp
        | cons m ps =>
          by_cases hmn : m = n
          · subst hmn
            have hps : ¬(ps <+: rest) := fun hq => hp (List.cons_prefix_cons.mpr ⟨rfl, hq⟩)
            rw [lookup_dir_cons, lookup_dir_cons, getChild_setChild_self]
            cases hg : getChild ch m with
            | some child =>
              rw [hg] at hc'
              exact ih child c' hc' ps hps
            | none =>
              rw [hg] at hc'
              have h1 := ih _ c' hc' ps hps
              show lookup c' ps = none
              rw [h1]
              cases ps with
              | nil => exact absurd List.nil_prefix hps
              | cons q qs => rfl
          · rw [lookup_dir_cons, lookup_dir_cons, getChild_setChild_ne _ _ _ _ hmn]

theorem createDirAll_isDir :
    ∀ (w : FsPath) (fs fs' : Node), createDirAll fs w = some fs' →
      ∀ p, p <+: w → isDir fs' p = true := by
  intro w
  induction w with
  | nil =>
    intro fs fs' h p hp
    cases fs with
    | file data => simp [createDirAll] at h
    | dir ch =>
      simp only [createDirAll, Option.some.injEq] at h
      subst h
      rw [List.prefix_nil.mp hp]
      rfl
  | cons n rest ih =>
    intro fs fs' h p hp
    cases fs with
    | file data => simp [createDirAll] at h
    | dir ch =>
      rw [createDirAll_dir_cons] at h
      cases hc' : createDirAll
          (match getChild ch n with | some c => c | none => .dir []) rest with
      | none => rw [hc'] at h; exact absurd h (by simp)
      | some c' =>
        rw [hc'] at h
        simp only [Option.some.injEq] at h
        subst h
        cases p with
        | nil => rfl
        | cons m ps =>
          obtain ⟨rfl, hps⟩ := List.cons_prefix_cons.mp hp
          show isDir (.dir (setChild ch m c')) (m :: ps) = true
          unfold isDir
          rw [lookup_dir_cons, getChild_setChild_self]
          exact ih _ c' hc' ps hps

theorem getChild_none_iff (ch : List (Name × Node)) (n : Name) :
    getChild ch n = none ↔ n ∉ ch.map Prod.fst := by
  induction ch with
  | nil => simp [getChild]
  | cons e rest ih =>
    obtain ⟨m, x⟩ := e
    by_cases hmn : m = n
    · subst hmn
      simp [getChild]
    · simp [getChild, hmn, ih, Ne.symm hmn]

theorem getChild_mem_names {ch : List (Name × Node)} {n : Name} {c : Node}
    (h : getChild ch n = some c) : n ∈ ch.map Prod.fst := by
  by_contra hn
  rw [← getChild_none_iff] at hn
  rw [h] at hn
  exact Option.noConfusion hn

theorem map_entrySpec_setChild_mem (ch : List (Name × Node)) (n : Name) (c c' : Node)
    (hg : getChild ch n = some c) (hspec : isDirNode c' = isDirNode c) :
    (setChild ch n c').map entrySpec = ch.map entrySpec := by
  induction ch with
  | nil => simp [getChild] at hg
  | cons e rest ih =>
    obtain ⟨m, x⟩ := e
    by_cases hmn : m = n
    · subst hmn
      have hx : x = c := by
        unfold getChild at hg
        simpa using hg
      subst hx
      simp [setChild, entrySpec, hspec]
    · simp only [getChild, if_neg hmn] at hg
      simp [setChild, hmn, ih hg]

theorem map_entrySpec_setChild_not_mem (ch : List (Name × Node)) (n : Name) (c' : Node)
    (hg : getChild ch n = none) :
    (setChild ch n c').map entrySpec = ch.map entrySpec ++ [(n, isDirNode c')] := by
  induction ch with
  | nil => simp [setChild, entrySpec]
  | cons e rest ih =>
    obtain ⟨m, x⟩ := e
    by_cases hmn : m = n
    · subst hmn
      simp [getChild] at hg
    · simp only [getChild, if_neg hmn] at hg
      simp [setChild, hmn, ih hg]

theorem map_entrySpec_delChild (ch : List (Name × Node)) (m : Name) :
    (delChild ch m).map entrySpec = eraseName (ch.map entrySpec) m := by
  induction ch with
  | nil => rfl
  | cons e rest ih =>
    obtain ⟨n, x⟩ := e
    by_cases hnm : n = m
    · subst hnm
      simp [delChild, eraseName, entrySpec, ih]
    · simp [delChild, eraseName, entrySpec, hnm, ih]

theorem getChild_of_mem_spec {ch : List (Name × Node)} {m : Name}
    (hn : (ch.map Prod.fst).Nodup) (hmem : (m, true) ∈ ch.map entrySpec) :
    ∃ x, getChild ch m = some x ∧ isDirNode x = true := by
  induction ch with
  | nil => simp at hmem
  | cons e rest ih =>
    obtain ⟨n, x⟩ := e
    simp only [List.map_cons, List.nodup_cons] at hn
    simp only [List.map_cons, List.mem_cons] at hmem
    rcases hmem with h | h
    · have h' : m = n ∧ (true : Bool) = isDirNode x := by
        simpa [entrySpec, Prod.ext_iff] using h
      obtain ⟨rfl, hdx⟩ := h'
      exact ⟨x, by simp [getChild], hdx.symm⟩
    · have hm : m ∈ rest.map Prod.fst := by
        obtain ⟨e', he', hspec⟩ := List.mem_map.mp h
        have h1 : e'.1 = m := congrArg Prod.fst hspec
        exact h1 ▸ List.mem_map_of_mem Prod.fst he'
      have hnm : n ≠ m := fun hh => hn.1 (hh ▸ hm)
      obtain ⟨x', hx', hdx'⟩ := ih hn.2 h
      exact ⟨x', by simp [getChild, hnm, hx'], hdx'⟩

theorem childSpecs_nil_dir (ch : List (Name × Node)) :
    childSpecs (.dir ch) [] = some (ch.map entrySpec) := rfl

theorem childSpecs_cons_some {ch : List (Name × Node)} {q : Name} {child : Node}
    (hg : getChild ch q = some child) (p : FsPath) :
    childSpecs (.dir ch) (q :: p) = childSpecs child p := by
  unfold childSpecs
  rw [lookup_dir_cons, hg]

theorem childSpecs_dir_shape {fs : Node} {b : FsPath} {l : List (Name × Bool)}
    (h : childSpecs fs b = some l) :
    (b = [] → ∃ ch, fs = .dir ch ∧ l = ch.map entrySpec) ∧
    (∀ q p, b = q :: p → ∃ ch child, fs = .dir ch ∧ getChild ch q = some child ∧
      childSpecs child p = some l) := by
  constructor
  · rintro rfl
    cases fs with
    | file data => simp [childSpecs, lookup] at h
    | dir ch =>
      refine ⟨ch, rfl, ?_⟩
      rw [childSpecs_nil_dir] at h
      exact (Option.some.injEq _ _ ▸ h).symm
  · rintro q p rfl
    cases fs with
    | file data => simp [childSpecs, lookup] at h
    | dir ch =>
      cases hg : getChild ch q with
      | none =>
        unfold childSpecs at h
        rw [lookup_dir_cons, hg] at h
        exact absurd h (by simp)
      | some child =>
        refine ⟨ch, child, rfl, hg, ?_⟩
        rw [← childSpecs_cons_some hg, h]

theorem map_fst_entrySpec (ch : List (Name × Node)) :
    (ch.map entrySpec).map Prod.fst = ch.map Prod.fst := by
  rw [List.map_map]
  rfl

theorem createDirAll_success_dir {c c' : Node} {rest : FsPath}
    (h : createDirAll c rest = some c') : isDirNode c = true ∧ isDirNode c' = true := by
  cases c with
  | file data => cases rest <;> simp [createDirAll] at h
  | dir ch =>
    refine ⟨rfl, ?_⟩
    cases rest with
    | nil =>
      simp only [createDirAll, Option.some.injEq] at h
      subst h
      rfl
    | cons n r =>
      rw [createDirAll_dir_cons] at h
      cases hc : createDirAll
          (match getChild ch n with | some c => c | none => .dir []) r with
      | none => rw [hc] at h; exact absurd h (by simp)
      | some c'' =>
        rw [hc] at h
        simp only [Option.some.injEq] at h
        subst h
        rfl

theorem writeFile_dir_single (ch : List (Name × Node)) (n : Name) (data : ℕ) :
    writeFile (.dir ch) [n] data =
      (match getChild ch n with
       | some (.dir _) => none
       | _ => some (.dir (setChild ch n (.file data)))) := rfl

theorem writeFile_dir_cons₂ (ch : List (Name × Node)) (n r : Name) (rs : FsPath)
    (data : ℕ) :
    writeFile (.dir ch) (n :: r :: rs) data =
      (match getChild ch n with
       | none => none
       | some child =>
         match writeFile child (r :: rs) data with
         | none => none
         | some c' => some (.dir (setChild ch n c'))) := rfl

theorem removeDirAll_dir_single (ch : List (Name × Node)) (m : Name) :
    removeDirAll (.dir ch) [m] =
      (match getChild ch m with
       | some (.dir _) => some (.dir (delChild ch m))
       | _ => none) := rfl

theorem removeDirAll_dir_cons₂ (ch : List (Name × Node)) (n r : Name) (rs : FsPath) :
    removeDirAll (.dir ch) (n :: r :: rs) =
      (match getChild ch n with
       | none => none
       | some child =>
         match removeDirAll child (r :: rs) with
         | none => none
         | some c' => some (.dir (setChild ch n c'))) := rfl

theorem writeFile_success_dir {c c' : Node} {r : Name} {rs : FsPath} {data : ℕ}
    (h : writeFile c (r :: rs) data = some c') :
    isDirNode c = true ∧ isDirNode c' = true := by
  cases c with
  | file d0 => simp [writeFile] at h
  | dir ch =>
    refine ⟨rfl, ?_⟩
    cases rs with
    | nil =>
      rw [writeFile_dir_single] at h
      cases hg : getChild ch r with
      | none =>
        rw [hg] at h
        simp only [Option.some.injEq] at h
        subst h
        rfl
      | some x =>
        rw [hg] at h
        cases x with
        | file d1 =>
          simp only [Option.some.injEq] at h
          subst h
          rfl
        | dir xch => exact absurd h (by simp)
    | cons r2 rs2 =>
      rw [writeFile_dir_cons₂] at h
      cases hg : getChild ch r with
      | none => rw [hg] at h; exact absurd h (by simp)
      | some child =>
        simp only [hg] at h
        cases hw : writeFile child (r2 :: rs2) data with
        | none => simp [hw] at h
        | some c'' =>
          simp only [hw, Option.some.injEq] at h
          subst h
          rfl

theorem createDirAll_childSpecs :
    ∀ (b : FsPath) (w : FsPath) (fs fs' : Node) (n : Name) (l : List (Name × Bool)),
      createDirAll fs w = some fs' → (b ++ [n]) <+: w → childSpecs fs b = some l →
      childSpecs fs' b
        = some (if n ∈ l.map Prod.fst then l else l ++ [(n, true)]) := by
  intro b
  induction b with
  | nil =>
    intro w fs fs' n l h hpre hl
    obtain ⟨ch, rfl, rfl⟩ := (childSpecs_dir_shape hl).1 rfl
    obtain ⟨t, rfl⟩ := hpre
    simp only [List.nil_append, List.singleton_append] at h
    rw [createDirAll_dir_cons] at h
    cases hg : getChild ch n with
    | some child =>
      rw [hg] at h
      cases hc : createDirAll child t with
      | none => rw [hc] at h; exact absurd h (by simp)
      | some c' =>
        rw [hc] at h
        simp only [Option.some.injEq] at h
        subst h
        have hd := createDirAll_success_dir hc
        rw [if_pos (by rw [map_fst_entrySpec]; exact getChild_mem_names hg)]
        rw [childSpecs_nil_dir,
          map_entrySpec_setChild_mem ch n child c' hg (by rw [hd.2, hd.1])]
    | none =>
      rw [hg] at h
      cases hc : createDirAll (Node.dir []) t with
      | none => rw [hc] at h; exact absurd h (by simp)
      | some c' =>
        rw [hc] at h
        simp only [Option.some.injEq] at h
        subst h
        have hd := createDirAll_success_dir hc
        rw [if_neg (by rw [map_fst_entrySpec]; exact (getChild_none_iff ch n).mp hg)]
        rw [childSpecs_nil_dir, map_entrySpec_setChild_not_mem ch n c' hg, hd.2]
  | cons q b' ih =>
    intro w fs fs' n l h hpre hl
    obtain ⟨ch, child, rfl, hg, hcs⟩ := (childSpecs_dir_shape hl).2 q b' rfl
    obtain ⟨t, rfl⟩ := hpre
    simp only [List.cons_append] at h
    rw [createDirAll_dir_cons, hg] at h
    cases hc : createDirAll child ((b' ++ [n]) ++ t) with
    | none => rw [hc] at h; exact absurd h (by simp)
    | some c' =>
      rw [hc] at h
      simp only [Option.some.injEq] at h
      subst h
      rw [childSpecs_cons_some (getChild_setChild_self ch q c') b']
      exact ih ((b' ++ [n]) ++ t) child c' n l hc (List.prefix_append _ _) hcs

theorem writeFile_childSpecs :
    ∀ (b : FsPath) (w : FsPath) (fs fs' : Node) (data : ℕ) (n : Name)
      (l : List (Name × Bool)),
      writeFile fs w data = some fs' → (b ++ [n]) <+: w → w ≠ b ++ [n] →
      childSpecs fs b = some l → childSpecs fs' b = some l := by
  intro b
  induction b with
  | nil =>
    intro w fs fs' data n l h hpre hne hl
    obtain ⟨ch, rfl, rfl⟩ := (childSpecs_dir_shape hl).1 rfl
    obtain ⟨t, rfl⟩ := hpre
    simp only [List.nil_append, List.singleton_append] at h hne ⊢
    cases t with
    | nil => exact absurd rfl hne
    | cons r rs =>
      rw [writeFile_dir_cons₂] at h
      cases hg : getChild ch n with
      | none => rw [hg] at h; exact absurd h (by simp)
      | some child =>
        simp only [hg] at h
        cases hw : writeFile child (r :: rs) data with
        | none => simp [hw] at h
        | some c' =>
          simp only [hw, Option.some.injEq] at h
          subst h
          have hd := writeFile_success_dir hw
          rw [childSpecs_nil_dir,
            map_entrySpec_setChild_mem ch n child c' hg (by rw [hd.2, hd.1])]
  | cons q b' ih =>
    intro w fs fs' data n l h hpre hne hl
    obtain ⟨ch, child, rfl, hg, hcs⟩ := (childSpecs_dir_shape hl).2 q b' rfl
    obtain ⟨t, rfl⟩ := hpre
    simp only [List.cons_append] at h hne
    cases hsh : (b' ++ [n]) ++ t with
    | nil => exact absurd hsh (by simp)
    | cons r rs =>
      rw [hsh] at h
      rw [writeFile_dir_cons₂] at h
      simp only [hg] at h
      cases hw : writeFile child (r :: rs) data with
      | none => simp [hw] at h
      | some c' =>
        simp only [hw, Option.some.injEq] at h
        subst h
        rw [childSpecs_cons_some (getChild_setChild_self ch q c') b']
        have hw' : writeFile child ((b' ++ [n]) ++ t) data = some c' := by
          rw [hsh]
          exact hw
        refine ih ((b' ++ [n]) ++ t) child c' data n l hw'
          (List.prefix_append _ _) (fun hq => hne (by rw [hq])) hcs

theorem removeDirAll_childSpecs :
    ∀ (b : FsPath) (fs : Node) (m : Name) (l : List (Name × Bool)),
      childSpecs fs b = some l → (l.map Prod.fst).Nodup → (m, true) ∈ l →
      ∃ fs', removeDirAll fs (b ++ [m]) = some fs' ∧
        childSpecs fs' b = some (eraseName l m) := by
  intro b
  induction b with
  | nil =>
    intro fs m l hl hnd hmem
    obtain ⟨ch, rfl, rfl⟩ := (childSpecs_dir_shape hl).1 rfl
    rw [map_fst_entrySpec] at hnd
    obtain ⟨x, hx, hdx⟩ := getChild_of_mem_spec hnd hmem
    cases x with
    | file d => simp [isDirNode] at hdx
    | dir xch =>
      refine ⟨.dir (delChild ch m), ?_, ?_⟩
      · show removeDirAll (.dir ch) ([] ++ [m]) = _
        simp only [List.nil_append]
        rw [removeDirAll_dir_single]
        simp only [hx]
      · rw [childSpecs_nil_dir, map_entrySpec_delChild]
  | cons q b' ih =>
    intro fs m l hl hnd hmem
    obtain ⟨ch, child, rfl, hg, hcs⟩ := (childSpecs_dir_shape hl).2 q b' rfl
    obtain ⟨c', hc', hcs'⟩ := ih child m l hcs hnd hmem
    refine ⟨.dir (setChild ch q c'), ?_, ?_⟩
    · show removeDirAll (.dir ch) ((q :: b') ++ [m]) = _
      simp only [List.cons_append]
      cases hsh : b' ++ [m] with
      | nil => exact absurd hsh (by simp)
      | cons r rs =>
        rw [hsh] at hc'
        rw [removeDirAll_dir_cons₂]
        simp only [hg, hc']
    · rw [childSpecs_cons_some (getChild_setChild_self ch q c') b']
      exact hcs'

theorem copyEntries_childSpecs (b : FsPath) (n : Name) :
    ∀ (fs : Node) (entries : List (Name × Node)) (src dst : FsPath),
      ∀ (fs' : Node) (l : List (Name × Bool)),
        copyEntries fs entries src dst = (fs', none) → (b ++ [n]) <+: dst →
        childSpecs fs b = some l → n ∈ l.map Prod.fst →
        childSpecs fs' b = some l := by
  intro fs entries src dst
  induction fs, entries, src, dst using copyEntries.induct
  case case1 fs src dst =>
    intro fs' l h hpre hl hn
    simp only [copyEntries, Prod.mk.injEq] at h
    rw [← h.1]
    exact hl
  case case2 fs src dst n' ch rest h0 =>
    intro fs' l h hpre hl hn
    simp only [copyEntries, h0, Prod.mk.injEq] at h
    exact absurd h.2 (by simp)
  case case3 fs src dst n' ch rest fs1 h0 fs2 e h2 ih =>
    intro fs' l h hpre hl hn
    simp only [copyEntries, h0, h2, Prod.mk.injEq] at h
    exact absurd h.2 (by simp)
  case case4 fs src dst n' ch rest fs1 h0 fs2 h2 ih ih2 =>
    intro fs' l h hpre hl hn
    simp only [copyEntries, h0, h2] at h
    have hl1 : childSpecs fs1 b = some l := by
      have := createDirAll_childSpecs b (dst ++ [n']) fs fs1 n l h0
        (hpre.trans (List.prefix_append _ _)) hl
      rwa [if_pos hn] at this
    have hl2 : childSpecs fs2 b = some l :=
      ih fs2 l h2 (hpre.trans (List.prefix_append _ _)) hl1 hn
    exact ih2 fs' l h hpre hl2 hn
  case case5 fs src dst n' data rest h0 =>
    intro fs' l h hpre hl hn
    simp only [copyEntries, h0, Prod.mk.injEq] at h
    exact absurd h.2 (by simp)
  case case6 fs src dst n' data rest fs1 h0 ih =>
    intro fs' l h hpre hl hn
    simp only [copyEntries, h0] at h
    have hne : dst ++ [n'] ≠ b ++ [n] := by
      intro heq
      have h1 := hpre.length_le
      have h2 := congrArg List.length heq
      simp at h1 h2
      omega
    have hl1 : childSpecs fs1 b = some l :=
      writeFile_childSpecs b (dst ++ [n']) fs fs1 data n l h0
        (hpre.trans (List.prefix_append _ _)) hne hl
    exact ih fs' l h hpre hl1 hn

/-- A successful `copy_dir_all` whose destination lies strictly below
`b ++ [n]` adds the child `n` (a directory) to `b`'s entry list when
absent and leaves the list unchanged when present. -/
theorem copyDirAll_childSpecs (b : FsPath) (n : Name) (fs fs' : Node)
    (src dst : FsPath) (l : List (Name × Bool))
    (h : copyDirAll fs src dst = (fs', none)) (hpre : (b ++ [n]) <+: dst)
    (hl : childSpecs fs b = some l) :
    childSpecs fs' b = some (if n ∈ l.map Prod.fst then l else l ++ [(n, true)]) := by
  unfold copyDirAll at h
  cases hc : createDirAll fs dst with
  | none => simp [hc] at h
  | some fs1 =>
    simp only [hc] at h
    have hl1 := createDirAll_childSpecs b dst fs fs1 n l hc hpre hl
    have hn1 : n ∈ (if n ∈ l.map Prod.fst then l else l ++ [(n, true)]).map Prod.fst := by
      split <;> simp_all
    cases hlk : lookup fs1 src with
    | none => simp [hlk] at h
    | some node =>
      simp only [hlk] at h
      cases node with
      | file data =>
        cases hw : writeFile fs1
            (dst ++ [match src.getLast? with | some m => m | none => unknownName])
            data with
        | none => simp [hw] at h
        | some fs2 =>
          simp only [hw, Prod.mk.injEq, and_true] at h
          rw [← h]
          have hne : dst ++ [match src.getLast? with | some m => m | none => unknownName]
              ≠ b ++ [n] := by
            intro heq
            have h1 := hpre.length_le
            have h2 := congrArg List.length heq
            simp at h1 h2
            omega
          exact writeFile_childSpecs b _ fs1 fs2 data n _ hw
            (hpre.trans (List.prefix_append _ _)) hne hl1
      | dir entries =>
        exact copyEntries_childSpecs b n fs1 entries src dst fs' _ h hpre hl1 hn1

theorem copyTargets_cons (fs : Node) (src nd : FsPath) (s d : FsPath)
    (rest : List (FsPath × FsPath)) :
    copyTargets fs src nd ((s, d) :: rest) =
      match copyDirAll fs (src ++ s) (nd ++ d) with
      | (fs', some e) => (fs', some e)
      | (fs', none) => copyTargets fs' src nd rest := by
  conv_lhs => unfold copyTargets

theorem copyTargets_append (fs : Node) (src nd : FsPath)
    (pre ts : List (FsPath × FsPath)) :
    copyTargets fs src nd (pre ++ ts) =
      match copyTargets fs src nd pre with
      | (f, some e) => (f, some e)
      | (f, none) => copyTargets f src nd ts := by
  induction pre generalizing fs with
  | nil => rfl
  | cons p pre ih =>
    obtain ⟨s, d⟩ := p
    simp only [List.cons_append]
    rw [copyTargets_cons, copyTargets_cons]
    cases h : copyDirAll fs (src ++ s) (nd ++ d) with
    | mk fs' r =>
      cases r with
      | none => exact ih fs'
      | some e => rfl

/-- Targets after the first preserve `b`'s entry list once the snapshot
directory child exists. -/
theorem copyTargets_childSpecs_present (b : FsPath) (n : Name) (source : FsPath)
    (ts : List (FsPath × FsPath)) :
    ∀ (fs fs' : Node) (l : List (Name × Bool)),
      copyTargets fs source (b ++ [n]) ts = (fs', none) →
      childSpecs fs b = some l → n ∈ l.map Prod.fst →
      childSpecs fs' b = some l := by
  induction ts with
  | nil =>
    intro fs fs' l h hl hn
    simp only [copyTargets, Prod.mk.injEq] at h
    rw [← h.1]
    exact hl
  | cons p rest ih =>
    obtain ⟨s, d⟩ := p
    intro fs fs' l h hl hn
    rw [copyTargets_cons] at h
    simp only [List.append_assoc, List.singleton_append] at h
    cases hcd : copyDirAll fs (source ++ s) (b ++ n :: d) with
    | mk fs1 r =>
      cases r with
      | some e => simp [hcd] at h
      | none =>
        simp only [hcd] at h
        have hl1 := copyDirAll_childSpecs b n fs fs1 (source ++ s) (b ++ n :: d)
          l hcd (by simp) hl
        rw [if_pos hn] at hl1
        exact ih fs1 fs' l h hl1 hn

/-- A successful snapshot copy phase with at least one target adds exactly
the new snapshot directory (as a directory) at the end of the destination
root's entry list, the rest unchanged. -/
theorem copyTargets_childSpecs_fresh (b : FsPath) (n : Name) (source : FsPath)
    (s d : FsPath) (rest : List (FsPath × FsPath)) (fs fs' : Node)
    (l : List (Name × Bool))
    (h : copyTargets fs source (b ++ [n]) ((s, d) :: rest) = (fs', none))
    (hl : childSpecs fs b = some l) (hn : n ∉ l.map Prod.fst) :
    childSpecs fs' b = some (l ++ [(n, true)]) := by
  rw [copyTargets_cons] at h
  simp only [List.append_assoc, List.singleton_append] at h
  cases hcd : copyDirAll fs (source ++ s) (b ++ n :: d) with
  | mk fs1 r =>
    cases r with
    | some e => simp [hcd] at h
    | none =>
      simp only [hcd] at h
      have hl1 := copyDirAll_childSpecs b n fs fs1 (source ++ s) (b ++ n :: d)
        l hcd (by simp) hl
      rw [if_neg hn] at hl1
      exact copyTargets_childSpecs_present b n source rest fs1 fs' (l ++ [(n, true)])
        h hl1 (by simp)


theorem specCollect_cons (p : FsPath) (n : Name) (isdir : Bool)
    (rest : List (Name × Bool)) :
    specCollect p ((n, isdir) :: rest) =
      if isdir then
        match decodeName n with
        | .skip => specCollect p rest
        | .unwrapAbort => .error .unwrapAbort
        | .ok t =>
          match specCollect p rest with
          | .error e => .error e
          | .ok l => .ok ((t, p ++ [n]) :: l)
      else specCollect p rest := by
  conv_lhs => unfold specCollect

theorem specCollect_append (p : FsPath) (l₁ l₂ : List (Name × Bool)) :
    specCollect p (l₁ ++ l₂) =
      match specCollect p l₁ with
      | .error e => .error e
      | .ok r₁ =>
        match specCollect p l₂ with
        | .error e => .error e
        | .ok r₂ => .ok (r₁ ++ r₂) := by
  induction l₁ with
  | nil =>
    simp only [List.nil_append]
    cases h : specCollect p l₂ with
    | error e => rfl
    | ok r => rfl
  | cons e l₁ ih =>
    obtain ⟨n, isdir⟩ := e
    simp only [List.cons_append]
    rw [specCollect_cons, specCollect_cons, ih]
    cases isdir with
    | false => simp
    | true =>
      simp only [if_true]
      cases decodeName n with
      | skip => rfl
      | unwrapAbort => rfl
      | ok t =>
        cases specCollect p l₁ with
        | error e => rfl
        | ok r₁ =>
          cases specCollect p l₂ with
          | error e => rfl
          | ok r₂ => rfl

theorem specCollect_eraseName (p : FsPath) (m : Name) :
    ∀ (l : List (Name × Bool)) (r : List (Timestamp × FsPath)),
      specCollect p l = .ok r →
      specCollect p (eraseName l m)
        = .ok (r.filter (fun e => decide (e.2 ≠ p ++ [m]))) := by
  intro l
  induction l with
  | nil =>
    intro r h
    simp only [specCollect] at h
    simp only [Except.ok.injEq] at h
    subst h
    rfl
  | cons e l ih =>
    obtain ⟨n, isdir⟩ := e
    intro r h
    rw [specCollect_cons] at h
    by_cases hnm : n = m
    · subst hnm
      have he : eraseName ((n, isdir) :: l) n = eraseName l n := by
        simp [eraseName]
      rw [he]
      cases isdir with
      | false =>
        simp only [Bool.false_eq_true, if_false] at h
        exact ih r h
      | true =>
        rw [if_pos rfl] at h
        cases hd : decodeName n with
        | skip =>
          rw [hd] at h
          exact ih r h
        | unwrapAbort =>
          rw [hd] at h
          exact absurd h (by simp)
        | ok t =>
          rw [hd] at h
          cases hl : specCollect p l with
          | error e2 => rw [hl] at h; exact absurd h (by simp)
          | ok r' =>
            rw [hl] at h
            simp only [Except.ok.injEq] at h
            subst h
            rw [ih r' hl]
            congr 1
            rw [List.filter_cons]
            simp
    · have he : eraseName ((n, isdir) :: l) m = (n, isdir) :: eraseName l m := by
        simp [eraseName, hnm]
      rw [he, specCollect_cons]
      have hpath : p ++ [n] ≠ p ++ [m] := by
        intro hq
        exact hnm (by simpa using List.append_cancel_left hq)
      cases isdir with
      | false =>
        simp only [Bool.false_eq_true, if_false] at h ⊢
        exact ih r h
      | true =>
        rw [if_pos rfl] at h ⊢
        cases hd : decodeName n with
        | skip =>
          rw [hd] at h
          exact ih r h
        | unwrapAbort =>
          rw [hd] at h
          exact absurd h (by simp)
        | ok t =>
          rw [hd] at h
          cases hl : specCollect p l with
          | error e2 => rw [hl] at h; exact absurd h (by simp)
          | ok r' =>
            rw [hl] at h
            simp only [Except.ok.injEq] at h
            subst h
            rw [ih r' hl]
            rw [List.filter_cons]
            simp [hpath]

theorem specCollect_mem (p : FsPath) :
    ∀ (l : List (Name × Bool)) (r : List (Timestamp × FsPath)) (t : Timestamp)
      (q : FsPath),
      specCollect p l = .ok r → (t, q) ∈ r →
      ∃ m, q = p ++ [m] ∧ (m, true) ∈ l ∧ decodeName m = .ok t := by
  intro l
  induction l with
  | nil =>
    intro r t q h hm
    simp only [specCollect, Except.ok.injEq] at h
    subst h
    simp at hm
  | cons e l ih =>
    obtain ⟨n, isdir⟩ := e
    intro r t q h hm
    rw [specCollect_cons] at h
    cases isdir with
    | false =>
      simp only [Bool.false_eq_true, if_false] at h
      obtain ⟨m, hq, hml, hd⟩ := ih r t q h hm
      exact ⟨m, hq, List.mem_cons_of_mem _ hml, hd⟩
    | true =>
      rw [if_pos rfl] at h
      cases hd : decodeName n with
      | skip =>
        rw [hd] at h
        obtain ⟨m, hq, hml, hdm⟩ := ih r t q h hm
        exact ⟨m, hq, List.mem_cons_of_mem _ hml, hdm⟩
      | unwrapAbort =>
        rw [hd] at h
        exact absurd h (by simp)
      | ok t0 =>
        rw [hd] at h
        cases hl : specCollect p l with
        | error e2 => rw [hl] at h; exact absurd h (by simp)
        | ok r' =>
          rw [hl] at h
          simp only [Except.ok.injEq] at h
          subst h
          rcases List.mem_cons.mp hm with hh | hh
          · have h1 : t = t0 ∧ q = p ++ [n] := by simpa [Prod.ext_iff] using hh
            refine ⟨n, h1.2, List.mem_cons_self _ _, ?_⟩
            rw [h1.1]
            exact hd
          · obtain ⟨m, hq, hml, hdm⟩ := ih r' t q hl hh
            exact ⟨m, hq, List.mem_cons_of_mem _ hml, hdm⟩

theorem specCollect_snd_sublist (p : FsPath) :
    ∀ (l : List (Name × Bool)) (r : List (Timestamp × FsPath)),
      specCollect p l = .ok r →
      List.Sublist (r.map Prod.snd) (l.map (fun e => p ++ [e.1])) := by
  intro l
  induction l with
  | nil =>
    intro r h
    simp only [specCollect, Except.ok.injEq] at h
    subst h
    simp
  | cons e l ih =>
    obtain ⟨n, isdir⟩ := e
    intro r h
    rw [specCollect_cons] at h
    simp only [List.map_cons]
    cases isdir with
    | false =>
      simp only [Bool.false_eq_true, if_false] at h
      exact (ih r h).cons _
    | true =>
      rw [if_pos rfl] at h
      cases hd : decodeName n with
      | skip =>
        rw [hd] at h
        exact (ih r h).cons _
      | unwrapAbort =>
        rw [hd] at h
        exact absurd h (by simp)
      | ok t0 =>
        rw [hd] at h
        cases hl : specCollect p l with
        | error e2 => rw [hl] at h; exact absurd h (by simp)
        | ok r' =>
          rw [hl] at h
          simp only [Except.ok.injEq] at h
          subst h
          simpa using (ih r' hl).cons₂ (p ++ [n])

/-! ## Sorting lemmas -/

/-- Strict key comparison, used only to pin sorted lists up to equality. -/
def tsKeyLT (a b : Timestamp × FsPath) : Prop := a.1.key < b.1.key

instance : IsTotal (Timestamp × FsPath) tsLE := ⟨fun _ _ => le_total _ _⟩

instance : IsTrans (Timestamp × FsPath) tsLE := ⟨fun _ _ _ => le_trans⟩

instance : IsAntisymm (Timestamp × FsPath) tsKeyLT :=
  ⟨fun _ _ h1 h2 => (lt_asymm h1 h2).elim⟩

theorem sortBackups_perm (l : List (Timestamp × FsPath)) : List.Perm (sortBackups l) l :=
  List.perm_insertionSort tsLE l

theorem sortBackups_sorted (l : List (Timestamp × FsPath)) :
    List.Sorted tsLE (sortBackups l) :=
  List.sorted_insertionSort tsLE l

theorem sortBackups_length (l : List (Timestamp × FsPath)) :
    (sortBackups l).length = l.length :=
  (sortBackups_perm l).length_eq

theorem sorted_eq_of_perm_keys_nodup {l₁ l₂ : List (Timestamp × FsPath)}
    (hp : List.Perm l₁ l₂) (h1 : List.Sorted tsLE l₁) (h2 : List.Sorted tsLE l₂)
    (hn : (l₁.map (fun e => e.1.key)).Nodup) : l₁ = l₂ := by
  have hn2 : (l₂.map (fun e => e.1.key)).Nodup := ((hp.map _).nodup_iff).mp hn
  have hs1 : List.Sorted tsKeyLT l₁ := by
    have hpair : l₁.Pairwise (fun a b => a.1.key ≠ b.1.key) := List.pairwise_map.mp hn
    exact (h1.and hpair).imp (fun h => lt_of_le_of_ne h.1 h.2)
  have hs2 : List.Sorted tsKeyLT l₂ := by
    have hpair : l₂.Pairwise (fun a b => a.1.key ≠ b.1.key) := List.pairwise_map.mp hn2
    exact (h2.and hpair).imp (fun h => lt_of_le_of_ne h.1 h.2)
  exact List.eq_of_perm_of_sorted hp hs1 hs2

theorem filter_not_mem_take_eq_drop (all : List (Timestamp × FsPath)) (k : ℕ)
    (hnp : (all.map Prod.snd).Nodup) :
    all.filter (fun e => decide (e.2 ∉ (all.take k).map Prod.snd)) = all.drop k := by
  have hsplit : all.map Prod.snd
      = (all.take k).map Prod.snd ++ (all.drop k).map Prod.snd := by
    rw [← List.map_append, List.take_append_drop]
  rw [hsplit, List.nodup_append] at hnp
  have h1 : (all.take k).filter
      (fun e => decide (e.2 ∉ (all.take k).map Prod.snd)) = [] := by
    rw [List.filter_eq_nil_iff]
    intro e he
    simp only [decide_eq_true_eq, not_not]
    exact List.mem_map_of_mem Prod.snd he
  have h2 : (all.drop k).filter
      (fun e => decide (e.2 ∉ (all.take k).map Prod.snd)) = all.drop k := by
    rw [List.filter_eq_self]
    intro e he
    simp only [decide_eq_true_eq]
    intro hmem
    exact hnp.2.2 hmem (List.mem_map_of_mem Prod.snd he)
  have key : all.filter (fun e => decide (e.2 ∉ (all.take k).map Prod.snd))
      = (all.take k).filter (fun e => decide (e.2 ∉ (all.take k).map Prod.snd))
        ++ (all.drop k).filter (fun e => decide (e.2 ∉ (all.take k).map Prod.snd)) := by
    rw [← List.filter_append, List.take_append_drop]
  rw [key, h1, h2, List.nil_append]

theorem collectBackups_cons (cfgPath : FsPath) (m : Name) (child : Node)
    (rest : List (Name × Node)) :
    collectBackups cfgPath ((m, child) :: rest) =
      if isDirNode child then
        match decodeName m with
        | .skip => collectBackups cfgPath rest
        | .unwrapAbort => .error .unwrapAbort
        | .ok t =>
          match collectBackups cfgPath rest with
          | .error e => .error e
          | .ok l => .ok ((t, cfgPath ++ [m]) :: l)
      else collectBackups cfgPath rest := by
  conv_lhs => unfold collectBackups

theorem collectBackups_eq_specCollect (p : FsPath) :
    ∀ entries : List (Name × Node),
      collectBackups p entries = specCollect p (entries.map entrySpec) := by
  intro entries
  induction entries with
  | nil => rfl
  | cons e rest ih =>
    obtain ⟨n, child⟩ := e
    rw [collectBackups_cons]
    simp only [List.map_cons, entrySpec]
    rw [specCollect_cons, ih]

theorem get_backups_sorted_eq_spec (fs : Node) (config : Configuration)
    (l : List (Name × Bool)) (h : childSpecs fs config.path = some l) :
    get_backups_sorted fs config =
      match specCollect config.path l with
      | .error e => .error e
      | .ok r => .ok (sortBackups r) := by
  unfold childSpecs at h
  unfold get_backups_sorted
  cases hlk : lookup fs config.path with
  | none => rw [hlk] at h; exact absurd h (by simp)
  | some node =>
    rw [hlk] at h
    cases node with
    | file d => exact absurd h (by simp)
    | dir ch =>
      simp only [Option.some.injEq] at h
      subst h
      show (match collectBackups config.path ch with
        | Except.error e => Except.error e
        | Except.ok dirs => Except.ok (sortBackups dirs)) =
        (match specCollect config.path (List.map entrySpec ch) with
        | Except.error e => Except.error e
        | Except.ok r => Except.ok (sortBackups r))
      rw [collectBackups_eq_specCollect]

theorem eraseName_names_sublist (l : List (Name × Bool)) (m : Name) :
    List.Sublist ((eraseName l m).map Prod.fst) (l.map Prod.fst) := by
  induction l with
  | nil => simp [eraseName]
  | cons e l ih =>
    obtain ⟨n0, b0⟩ := e
    by_cases hn0 : n0 = m
    · subst hn0
      simp only [eraseName, if_pos rfl, List.map_cons]
      exact ih.cons _
    · simp only [eraseName, if_neg hn0, List.map_cons]
      exact ih.cons₂ _

/-- The deletion loop: when every element to delete is a directory entry of
the destination root (named by its own path) and their paths are distinct,
every deletion succeeds, the removal trace lists the paths in order, and
the surviving raw listing is the original minus exactly the deleted
paths. -/
theorem removeLoop_spec (b : FsPath) :
    ∀ (del : List (Timestamp × FsPath)) (fs : Node) (l : List (Name × Bool))
      (r : List (Timestamp × FsPath)),
      childSpecs fs b = some l → (l.map Prod.fst).Nodup →
      specCollect b l = .ok r →
      (∀ e ∈ del, e ∈ r) → (del.map Prod.snd).Nodup →
      ∃ fs' l', removeLoop fs del = ⟨fs', del.map Prod.snd, none⟩ ∧
        childSpecs fs' b = some l' ∧ (l'.map Prod.fst).Nodup ∧
        specCollect b l'
          = .ok (r.filter (fun e => decide (e.2 ∉ del.map Prod.snd))) := by
  intro del
  induction del with
  | nil =>
    intro fs l r hl hnd hr _ _
    refine ⟨fs, l, rfl, hl, hnd, ?_⟩
    rw [hr]
    congr 1
    have : ∀ e ∈ r, (decide (e.2 ∉ ([] : List (Timestamp × FsPath)).map Prod.snd))
        = true := by
      intro e _
      simp
    rw [List.filter_eq_self.mpr this]
  | cons hd del ih =>
    obtain ⟨t, q⟩ := hd
    intro fs l r hl hnd hr hmem hpndup
    obtain ⟨m, rfl, hml, hdm⟩ := specCollect_mem b l r t q hr (hmem _ (by simp))
    obtain ⟨fs1, hrm, hl1⟩ := removeDirAll_childSpecs b fs m l hl hnd hml
    have hnd1 : ((eraseName l m).map Prod.fst).Nodup :=
      (eraseName_names_sublist l m).nodup hnd
    have hr1 : specCollect b (eraseName l m)
        = .ok (r.filter (fun e => decide (e.2 ≠ b ++ [m]))) :=
      specCollect_eraseName b m l r hr
    simp only [List.map_cons, List.nodup_cons] at hpndup
    have hmem1 : ∀ e ∈ del, e ∈ r.filter (fun e => decide (e.2 ≠ b ++ [m])) := by
      intro e he
      rw [List.mem_filter]
      refine ⟨hmem e (List.mem_cons_of_mem _ he), ?_⟩
      simp only [decide_eq_true_eq]
      intro hq
      exact hpndup.1 (hq ▸ List.mem_map_of_mem Prod.snd he)
    obtain ⟨fs', l', hloop, hl', hnd', hr'⟩ :=
      ih fs1 (eraseName l m) _ hl1 hnd1 hr1 hmem1 hpndup.2
    refine ⟨fs', l', ?_, hl', hnd', ?_⟩
    · show removeLoop fs ((t, b ++ [m]) :: del) = _
      unfold removeLoop
      simp [hrm, hloop]
    · rw [hr']
      rw [List.filter_filter]
      congr 1
      apply List.filter_congr
      intro e _
      simp only [List.map_cons, List.mem_cons, decide_eq_true_eq, not_or]
      rw [Bool.and_comm]
      simp [and_comm]

theorem decodeTokens_skip (l : List (Option ℕ)) (h : l.length ≠ 6 ∨ none ∈ l) :
    decodeTokens l = DecodeOutcome.skip := by
  rcases l with _ |
    ⟨_ | a, _ | ⟨_ | b, _ | ⟨_ | c, _ | ⟨_ | d, _ | ⟨_ | e, _ | ⟨_ | f, _ | ⟨g, l⟩⟩⟩⟩⟩⟩⟩ <;>
    first
    | rfl
    | (rcases h with h | h
       · exact absurd rfl h
       · simp at h)

/-! ## Claim C2 -/

/-- C2 counterexample: a supplied non-negative floor of `2^64` seconds
makes the real `duration_compare(2s, 4s, Some(2^64))` panic — the
`Duration::from_secs_f64` call on the error path sits outside the
`catch_unwind`, and `2^64` seconds overflows `Duration` — so the claim's
"no error or panic escapes to the caller" fails. -/
theorem duration_compare_panic_cex :
    (0 : ℚ) ≤ 2 ^ 64 ∧
    duration_compare 2000000000 4000000000 (some (2 ^ 64)) = none := by
  constructor
  · norm_num
  · unfold duration_compare
    rw [if_neg (by norm_num)]
    show fromSecsF64 (if (2 : ℚ) ^ 64 < 0 then 0 else 2 ^ 64) = none
    rw [if_neg (by norm_num)]
    unfold fromSecsF64
    rw [if_neg (by norm_num)]

/-- C2 (amended): for `b ≤ a`, `duration_compare` returns `a - b` whatever
floor is supplied; for `a < b` it returns the supplied floor (converted to
a duration at nanosecond precision) when the floor is non-negative and
below `2^64` seconds, and `0` when the floor is negative or absent; but a
supplied non-negative floor at or above `2^64` seconds overflows
`Duration::from_secs_f64` outside the `catch_unwind` and the panic escapes
to the caller. -/
theorem duration_compare_clamped_subtract (a b : ℕ) (q : ℚ) :
    (b ≤ a → ∀ fl : Option ℚ, duration_compare a b fl = some (a - b)) ∧
    (a < b → 0 ≤ q → duration_compare a b (some q) = fromSecsF64 q) ∧
    (a < b → q < 0 → duration_compare a b (some q) = some 0) ∧
    (a < b → duration_compare a b none = some 0) ∧
    (a < b → (2 : ℚ) ^ 64 ≤ q → duration_compare a b (some q) = none) := by
  refine ⟨fun h fl => ?_, fun h hq => ?_, fun h hq => ?_, fun h => ?_,
    fun h hq => ?_⟩ <;> unfold duration_compare
  · rw [if_pos h]
  · rw [if_neg (not_le.mpr h)]
    show fromSecsF64 (if q < 0 then 0 else q) = fromSecsF64 q
    rw [if_neg (not_lt.mpr hq)]
  · rw [if_neg (not_le.mpr h)]
    show fromSecsF64 (if q < 0 then 0 else q) = some 0
    rw [if_pos hq, fromSecsF64_zero]
  · rw [if_neg (not_le.mpr h), fromSecsF64_zero]
  · rw [if_neg (not_le.mpr h)]
    show fromSecsF64 (if q < 0 then 0 else q) = none
    have h0 : ¬ q < 0 := by
      have : (0 : ℚ) < 2 ^ 64 := by norm_num
      linarith
    rw [if_neg h0]
    unfold fromSecsF64
    rw [if_neg (by push_neg; intro _; linarith)]

/-- Witness for C2 amended, matching the repository's own
`test_duration_compare` values (durations in nanoseconds, floor 2.1 s),
plus the escaping-panic case for an overflowing floor. -/
theorem duration_compare_clamped_subtract_witness :
    duration_compare 4000000000 2000000000 none = some 2000000000 ∧
    duration_compare 2000000000 4000000000 (some (21 / 10)) = some 2100000000 ∧
    duration_compare 2000000000 4000000000 (some (-1)) = some 0 ∧
    duration_compare 2000000000 4000000000 none = some 0 ∧
    duration_compare 2000000000 4000000000 (some (2 ^ 64)) = none := by
  have h1 := duration_compare_clamped_subtract 4000000000 2000000000 (21 / 10)
  have h2 := duration_compare_clamped_subtract 2000000000 4000000000 (21 / 10)
  have h3 := duration_compare_clamped_subtract 2000000000 4000000000 (-1)
  have h4 := duration_compare_clamped_subtract 2000000000 4000000000 (2 ^ 64)
  refine ⟨?_, ?_, ?_, ?_, ?_⟩
  · rw [h1.1 (by norm_num) none]
  · rw [h2.2.1 (by norm_num) (by norm_num)]
    unfold fromSecsF64
    rw [if_pos (by norm_num)]
    rw [show ((21 : ℚ) / 10) * 1000000000 = ((2100000000 : ℕ) : ℚ) by norm_num,
      round_natCast]
    rfl
  · exact h3.2.2.1 (by norm_num) (by norm_num)
  · exact h2.2.2.2.1 (by norm_num)
  · exact h4.2.2.2.2 (by norm_num) (by norm_num)

/-! ## Claim C6 -/

/-- C6 counterexample: at an early wake with `retimeRequested` set, the
claim predicts the worker clears the flag, but the code never stores
`false` into `timer_change` in that branch: after the iteration the flag
is still `true`. -/
theorem worker_retime_flag_not_cleared_cex :
    (workerIteration ⟨false, 0⟩ ⟨false, true, false, false⟩ 10 4 5 true).sig.timer_change
      = true := by decide

/-- C6 amended: when the worker wakes early (`diff < sleepFor`) with
`retimeRequested` set, it sets the pending short duration to
`clampedSubtract(diff, newInterval)` with floor 0 (where `newInterval` is
the interval read from the configuration at that moment), executes no
backup, leaves every signal flag — including `retimeRequested` — unchanged
(the flag is *not* cleared), and the next iteration sleeps for the pending
duration instead of the full interval. -/
theorem worker_retime_amended (st : Crucible.WorkerState) (sig : Signals)
    (fh fl diff : ℕ) (bk : Bool)
    (hexit : sig.exit_flag = false)
    (hdiff : diff < (if st.use_diff_time then st.diff_time else fh))
    (hretime : sig.timer_change = true) :
    workerIteration st sig fh fl diff bk =
      ⟨⟨true, (duration_compare diff fl none).getD 0⟩, sig,
        (if st.use_diff_time then st.diff_time else fh), false, false⟩ ∧
    (∀ (sig2 : Signals) (fh2 fl2 d2 : ℕ) (b2 : Bool), sig2.exit_flag = false →
      (workerIteration ⟨true, (duration_compare diff fl none).getD 0⟩
          sig2 fh2 fl2 d2 b2).slept_for
        = (duration_compare diff fl none).getD 0) := by
  constructor
  · unfold workerIteration
    rw [hexit, hretime]
    simp only [Bool.false_eq_true, if_false, if_neg (not_le.mpr hdiff), if_true]
  · intro sig2 fh2 fl2 d2 b2 hexit2
    unfold workerIteration
    rw [hexit2]
    simp only [Bool.false_eq_true, if_false, if_true]
    split
    · split <;> rfl
    · split
      · rfl
      · split
        · split <;> rfl
        · rfl

/-- Witness for C6 amended. -/
theorem worker_retime_amended_witness :
    workerIteration ⟨false, 0⟩ ⟨false, true, false, false⟩ 10 4 5 true
      = ⟨⟨true, (duration_compare 5 4 none).getD 0⟩,
         ⟨false, true, false, false⟩, 10, false, false⟩ :=
  (worker_retime_amended ⟨false, 0⟩ ⟨false, true, false, false⟩ 10 4 5 true
    rfl (by decide) rfl).1

/-! ## Claim C7 -/

/-- C7: if both `retimeRequested` and `manualTriggerRequested` are set when
the worker wakes early, the retime branch is taken: no snapshot is executed
at that wake, the manual trigger request stays pending (still set), and in
general the manual-trigger branch runs only when `retimeRequested` is not
set (an early wake with the retime flag set never runs a backup). -/
theorem worker_priority_retime_over_manual (st : Crucible.WorkerState) (sig : Signals)
    (fh fl diff : ℕ) (bk : Bool)
    (hexit : sig.exit_flag = false)
    (hdiff : diff < (if st.use_diff_time then st.diff_time else fh))
    (hretime : sig.timer_change = true)
    (hmanual : sig.manual_backup = true) :
    (workerIteration st sig fh fl diff bk).ran_backup = false ∧
    (workerIteration st sig fh fl diff bk).sig.manual_backup = true ∧
    (workerIteration st sig fh fl diff bk).st.diff_time
      = (duration_compare diff fl none).getD 0 ∧
    (∀ (st2 : Crucible.WorkerState) (sig2 : Signals) (fh2 fl2 d2 : ℕ) (b2 : Bool),
      sig2.exit_flag = false →
      d2 < (if st2.use_diff_time then st2.diff_time else fh2) →
      sig2.timer_change = true →
      (workerIteration st2 sig2 fh2 fl2 d2 b2).ran_backup = false) := by
  have hbranch : ∀ (st2 : Crucible.WorkerState) (sig2 : Signals) (fh2 fl2 d2 : ℕ) (b2 : Bool),
      sig2.exit_flag = false →
      d2 < (if st2.use_diff_time then st2.diff_time else fh2) →
      sig2.timer_change = true →
      workerIteration st2 sig2 fh2 fl2 d2 b2 =
        ⟨⟨true, (duration_compare d2 fl2 none).getD 0⟩, sig2,
          (if st2.use_diff_time then st2.diff_time else fh2), false, false⟩ := by
    intro st2 sig2 fh2 fl2 d2 b2 he hd hr
    unfold workerIteration
    rw [he, hr]
    simp only [Bool.false_eq_true, if_false, if_neg (not_le.mpr hd), if_true]
  refine ⟨?_, ?_, ?_, fun st2 sig2 fh2 fl2 d2 b2 he hd hr => ?_⟩
  · rw [hbranch st sig fh fl diff bk hexit hdiff hretime]
  · rw [hbranch st sig fh fl diff bk hexit hdiff hretime]; exact hmanual
  · rw [hbranch st sig fh fl diff bk hexit hdiff hretime]
  · rw [hbranch st2 sig2 fh2 fl2 d2 b2 he hd hr]

/-- Witness for C7. -/
theorem worker_priority_retime_over_manual_witness :
    (workerIteration ⟨false, 0⟩ ⟨false, true, true, false⟩ 10 4 5 true).ran_backup = false ∧
    (workerIteration ⟨false, 0⟩ ⟨false, true, true, false⟩ 10 4 5 true).sig.manual_backup
      = true := by
  have h := worker_priority_retime_over_manual ⟨false, 0⟩ ⟨false, true, true, false⟩
    10 4 5 true rfl (by decide) rfl rfl
  exact ⟨h.1, h.2.1⟩

/-! ## Claim C8 -/

/-- C8 counterexample: a key whose recorded timestamp (5000 ms) is later
than `now` (3000 ms) is *accepted* by `is_debounced` with a 2-second
minimum interval, although `now - last = -2000 ms` is not at least the
2000 ms threshold — the claimed "accepts exactly when now − recorded ≥
minInterval" fails (the negative difference wraps under `as u128`). -/
theorem debounce_exact_iff_cex :
    is_debounced 0 3000 (fun k => if k = 0 then some 5000 else none) 2000000000 = true ∧
    ¬ ((2000000000 / 1000000 : ℤ) ≤ (3000 : ℤ) - 5000) := by
  constructor
  · decide
  · decide

/-- C8 amended: the gate accepts when the tracker holds no timestamp for
the key; when a prior timestamp exists *that is not later than `now`*, it
accepts exactly when `now - last` is at least the minimum interval (in
whole milliseconds); and the main-screen handler records `now` for the key
on every evaluated press, whether accepted or rejected, while returning
exactly the gate's verdict.  (When the recorded timestamp is later than
`now` the code accepts regardless of the interval; see the wrap-around
result.) -/
theorem debounce_gate_amended (key : ℕ) (now last : ℤ) (tracker : ℕ → Option ℤ)
    (duration : ℕ) :
    (tracker key = none → is_debounced key now tracker duration = true) ∧
    (tracker key = some last → last ≤ now → now - last < 2 ^ 63 →
      (is_debounced key now tracker duration = true ↔
        (duration / 1000000 : ℤ) ≤ now - last)) ∧
    (mainScreenDebounce tracker key now duration).2 key = some now ∧
    (mainScreenDebounce tracker key now duration).1
      = is_debounced key now tracker duration := by
  refine ⟨fun h => ?_, fun h hle hlt => ?_, ?_, rfl⟩
  · unfold is_debounced
    rw [h]
  · unfold is_debounced
    rw [h]
    simp only [decide_eq_true_eq]
    have h0 : (0 : ℤ) ≤ now - last := sub_nonneg.mpr hle
    have hc : (castU128 (now - last) : ℤ) = now - last :=
      castU128_nonneg h0 (lt_trans hlt (by norm_num))
    constructor
    · intro hn
      calc (duration / 1000000 : ℤ) ≤ (castU128 (now - last) : ℤ) := by exact_mod_cast hn
        _ = now - last := hc
    · intro hz
      have : (duration / 1000000 : ℤ) ≤ (castU128 (now - last) : ℤ) := by rw [hc]; exact hz
      exact_mod_cast this
  · unfold mainScreenDebounce
    simp

/-- Witness for C8 amended. -/
theorem debounce_gate_amended_witness :
    is_debounced 0 4000 (fun k => if k = 0 then some 1000 else none) 2000000000 = true := by
  have h := (debounce_gate_amended 0 4000 1000
    (fun k => if k = 0 then some 1000 else none) 2000000000).2.1 rfl (by decide) (by decide)
  exact h.mpr (by decide)

/-! ## Claim C9 -/

/-- C9: when the recorded timestamp for a key is strictly later than `now`
(clock stepped backwards), the signed millisecond difference is negative
and its `as u128` cast wraps to at least `2^128 - 2^63`, which exceeds the
millisecond value of every representable `Duration`; the press is accepted.
The difference is bounded below by `-2^63` because it is an `i64`. -/
theorem debounce_clock_backwards (key : ℕ) (now last : ℤ) (tracker : ℕ → Option ℤ)
    (duration : ℕ)
    (hrec : tracker key = some last) (hlt : now < last)
    (hbound : -(2 ^ 63) ≤ now - last)
    (hdur : duration ≤ (2 ^ 64 - 1) * 1000000000 + 999999999) :
    is_debounced key now tracker duration = true := by
  unfold is_debounced
  rw [hrec]
  simp only [decide_eq_true_eq]
  have h1 : duration / 1000000 ≤ ((2 ^ 64 - 1) * 1000000000 + 999999999) / 1000000 :=
    Nat.div_le_div_right hdur
  have h2 : ((2 ^ 64 - 1) * 1000000000 + 999999999) / 1000000
      = 18446744073709551615999 := by decide
  have h3 : (castU128 (now - last) : ℤ) = 2 ^ 128 + (now - last) :=
    castU128_neg (by linarith) (by linarith)
  have h4 : ((duration / 1000000 : ℕ) : ℤ) ≤ (castU128 (now - last) : ℤ) := by
    have h5 : ((duration / 1000000 : ℕ) : ℤ) ≤ 18446744073709551615999 := by
      exact_mod_cast le_trans h1 (le_of_eq h2)
    have h6 : (18446744073709551615999 : ℤ) + 2 ^ 63 ≤ 2 ^ 128 := by norm_num
    rw [h3]
    linarith
  exact_mod_cast h4

/-- Witness for C9. -/
theorem debounce_clock_backwards_witness :
    is_debounced 7 100 (fun k => if k = 7 then some 600 else none) 1000000000 = true :=
  debounce_clock_backwards 7 100 600 (fun k => if k = 7 then some 600 else none)
    1000000000 rfl (by decide) (by decide) (by decide)

/-! ## Claim C3 -/

/-- C3 counterexample: a destination directory containing a subdirectory
named `2024-13-01 00-00-00` (6 tokens, all parse as non-negative integers,
but month 13 is not a valid date) makes `get_backups_sorted` abort: the
`.unwrap()` on `with_ymd_and_hms` panics instead of silently skipping the
name and continuing. -/
theorem listing_abort_cex :
    get_backups_sorted
        (Node.dir [("2024-13-01 00-00-00".toList, Node.dir [])])
        ⟨[], 0, [], 10⟩
      = Except.error ListErr.unwrapAbort := by rfl

/-- C3 amended: a directory name that does not split into exactly 6 tokens,
or any of whose tokens fails to parse as a `u32`, is silently skipped by
the listing, which continues with the remaining entries; but a name whose
6 parsed integer fields do not form a valid local date-time makes
`get_backups_sorted` panic (abort the listing); see the counterexample. -/
theorem listing_skip_amended (cfgPath : FsPath) (pre post : List (Name × Node))
    (n : Name) (node : Node)
    (hbad : (splitName n).length ≠ 6 ∨ ∃ tok ∈ splitName n, parseU32 tok = none) :
    collectBackups cfgPath (pre ++ (n, node) :: post)
      = collectBackups cfgPath (pre ++ post) := by
  have hskip : decodeName n = DecodeOutcome.skip := by
    unfold decodeName
    apply decodeTokens_skip
    rcases hbad with h | ⟨tok, hmem, hnone⟩
    · left; simpa using h
    · right; exact List.mem_map.mpr ⟨tok, hmem, hnone⟩
  induction pre with
  | nil =>
    simp only [List.nil_append]
    rw [collectBackups_cons, hskip]
    split <;> rfl
  | cons e pre ih =>
    obtain ⟨m, child⟩ := e
    simp only [List.cons_append]
    rw [collectBackups_cons, ih, ← collectBackups_cons]

/-- Witness for C3 amended: the name `abc` (one token) is skipped. -/
theorem listing_skip_amended_witness :
    collectBackups [] [("abc".toList, Node.dir [])] = collectBackups [] [] :=
  listing_skip_amended [] [] [] ("abc".toList) (Node.dir []) (Or.inl (by decide))

/-! ## Claim C4 -/

/-- C4 counterexample: the timestamp `-0004-05-06 07:08:09` is a valid
local timestamp truncated to whole seconds (chrono supports years down to
-262144), but `%Y` prints negative years with a leading `-`, so the encoded
name splits into 7 tokens and decoding rejects it: `decode(encode(t))` is
a skip, not `t`. -/
theorem encode_decode_roundtrip_cex :
    validTimestamp ⟨-4, 5, 6, 7, 8, 9⟩ = true ∧
    decodeName (encodeName ⟨-4, 5, 6, 7, 8, 9⟩) = DecodeOutcome.skip := by
  constructor
  · decide
  · decide

/-- The encode/decode round-trip, proved once and shared: decoding the
`%Y-%m-%d %H-%M-%S` name of a valid timestamp with non-negative year
recovers the timestamp. -/
theorem decodeName_encodeName (t : Timestamp)
    (hv : validTimestamp t = true) (hy : 0 ≤ t.year) :
    decodeName (encodeName t) = DecodeOutcome.ok t := by
  have hb : -262144 ≤ t.year ∧ t.year ≤ 262143 ∧ 1 ≤ t.month ∧ t.month ≤ 12 ∧
      1 ≤ t.day ∧ t.day ≤ daysInMonth t.year t.month ∧
      t.hour < 24 ∧ t.minute < 60 ∧ t.second < 60 := by
    have h := hv
    unfold validTimestamp at h
    exact of_decide_eq_true h
  obtain ⟨h1, h2, h3, h4, h5, h6, h7, h8, h9⟩ := hb
  have hdm : t.day ≤ 31 := by
    have : daysInMonth t.year t.month ≤ 31 := by
      unfold daysInMonth
      split
      · split <;> norm_num
      · split <;> norm_num
    omega
  unfold decodeName
  rw [splitName_encodeName hy]
  simp only [List.map_cons, List.map_nil]
  rw [formatYear_parse hy h2, parseU32_pad2 t.month (by omega),
    parseU32_pad2 t.day (by omega), parseU32_pad2 t.hour (by omega),
    parseU32_pad2 t.minute (by omega), parseU32_pad2 t.second (by omega)]
  show (if validTimestamp ⟨castI32 t.year.toNat, t.month, t.day, t.hour, t.minute,
      t.second⟩ = true then
    DecodeOutcome.ok ⟨castI32 t.year.toNat, t.month, t.day, t.hour, t.minute, t.second⟩
  else DecodeOutcome.unwrapAbort) = DecodeOutcome.ok t
  have hcast : castI32 t.year.toNat = t.year := by
    rw [castI32_small (by omega : t.year.toNat < 2 ^ 31), Int.toNat_of_nonneg hy]
  rw [hcast]
  have heta : (⟨t.year, t.month, t.day, t.hour, t.minute, t.second⟩ : Timestamp) = t := rfl
  rw [heta, hv]
  simp

/-- C4 amended: for every *valid* local timestamp `t` truncated to whole
seconds *whose year is non-negative* (as every timestamp produced by
`Local::now()` is), encoding `t` as a snapshot directory name
(`%Y-%m-%d %H-%M-%S`, as `back_up_files` does) and decoding that name (as
`get_backups_sorted` does) yields `t` again.  (For negative years the
leading sign produces a 7th token and decoding rejects the name; see the
counterexample.) -/
theorem encode_decode_roundtrip (t : Timestamp)
    (hv : validTimestamp t = true) (hy : 0 ≤ t.year) :
    decodeName (encodeName t) = DecodeOutcome.ok t :=
  decodeName_encodeName t hv hy

/-- Witness for C4 amended. -/
theorem encode_decode_roundtrip_witness :
    decodeName (encodeName ⟨2024, 5, 6, 7, 8, 9⟩) = DecodeOutcome.ok ⟨2024, 5, 6, 7, 8, 9⟩ :=
  encode_decode_roundtrip ⟨2024, 5, 6, 7, 8, 9⟩ (by decide) (by decide)

/-! ## Claim C5 -/

/-- C5: the snapshot operation is fail-fast and non-transactional.
First conjunct: if the pairs before some target copied cleanly and that
target's mirror-copy fails with `e` leaving tree `fs2`, then
`back_up_files` returns exactly `(fs2, error e)` — the error is propagated
unchanged, the pairs after the failing one (an arbitrary `post`) are never
touched, and the partial output `fs2` is kept (no rollback, no pruning).
Second conjunct: when every pair copies cleanly, the result is exactly the
pruned tree — prune runs only after all pairs succeeded. -/
theorem backup_failfast (fs : Node) (source : FsPath) (config : Configuration)
    (now : Timestamp) :
    (∀ (fs1 fs2 : Node) (pre post : List (FsPath × FsPath)) (s d : FsPath) (e : CopyErr),
      config.targets = pre ++ (s, d) :: post →
      copyTargets fs source (config.path ++ [encodeName now]) pre = (fs1, none) →
      copyDirAll fs1 (source ++ s) ((config.path ++ [encodeName now]) ++ d)
        = (fs2, some e) →
      back_up_files fs source config now = (fs2, Except.error (BackupErr.copy e))) ∧
    (∀ fs3 : Node,
      copyTargets fs source (config.path ++ [encodeName now]) config.targets
        = (fs3, none) →
      back_up_files fs source config now
        = (match (remove_old_backups fs3 config).err with
           | some e' => ((remove_old_backups fs3 config).fs,
               Except.error (BackupErr.prune e'))
           | none => ((remove_old_backups fs3 config).fs,
               Except.ok (config.path ++ [encodeName now])))) := by
  constructor
  · intro fs1 fs2 pre post s d e htargets hpre hfail
    have hall : copyTargets fs source (config.path ++ [encodeName now]) config.targets
        = (fs2, some e) := by
      rw [htargets]
      simp only [copyTargets_append, hpre, copyTargets_cons, hfail]
    simp only [back_up_files, hall]
  · intro fs3 hok
    simp only [back_up_files, hok]

/-- Witness for C5: a two-target configuration whose first source is
missing aborts with its not-found error (second target untouched), and a
configuration whose single target copies cleanly reaches the prune and
returns the new snapshot path. -/
theorem backup_failfast_witness :
    (back_up_files
        (Node.dir [(['b'], Node.dir []), (['s'], Node.dir [(['f'], Node.file 5)])])
        [['s']] ⟨[['b']], 0, [([['m']], []), ([['f']], [])], 10⟩ ⟨2024, 1, 1, 0, 0, 0⟩).2
      = Except.error (BackupErr.copy (CopyErr.notFound [['s'], ['m']])) ∧
    (back_up_files
        (Node.dir [(['b'], Node.dir []), (['s'], Node.dir [(['f'], Node.file 5)])])
        [['s']] ⟨[['b']], 0, [([['f']], [])], 10⟩ ⟨2024, 1, 1, 0, 0, 0⟩).2
      = Except.ok ([['b']] ++ [encodeName ⟨2024, 1, 1, 0, 0, 0⟩]) := by
  constructor
  · have h := (backup_failfast
        (Node.dir [(['b'], Node.dir []), (['s'], Node.dir [(['f'], Node.file 5)])])
        [['s']] ⟨[['b']], 0, [([['m']], []), ([['f']], [])], 10⟩ ⟨2024, 1, 1, 0, 0, 0⟩).1
      (Node.dir [(['b'], Node.dir []), (['s'], Node.dir [(['f'], Node.file 5)])])
      ((copyDirAll
          (Node.dir [(['b'], Node.dir []), (['s'], Node.dir [(['f'], Node.file 5)])])
          ([['s']] ++ [['m']])
          (([['b']] ++ [encodeName ⟨2024, 1, 1, 0, 0, 0⟩]) ++ [])).1)
      [] [([['f']], [])] [['m']] [] (CopyErr.notFound [['s'], ['m']]) rfl rfl rfl
    rw [h]
  · have h := (backup_failfast
        (Node.dir [(['b'], Node.dir []), (['s'], Node.dir [(['f'], Node.file 5)])])
        [['s']] ⟨[['b']], 0, [([['f']], [])], 10⟩ ⟨2024, 1, 1, 0, 0, 0⟩).2
      ((copyTargets
          (Node.dir [(['b'], Node.dir []), (['s'], Node.dir [(['f'], Node.file 5)])])
          [['s']] ([['b']] ++ [encodeName ⟨2024, 1, 1, 0, 0, 0⟩]) [([['f']], [])]).1)
      rfl
    rw [h]
    rfl

/-! ## Claim C10 -/

/-- C10: `copy_dir_all` creates the destination tree before inspecting the
source, so when the very first target pair's source does not exist (and
the destination path is not blocked), the snapshot returns its not-found
error while the created destination tree — including the timestamped
snapshot root — is left on disk. -/
theorem snapshot_missing_source (fs fs1 : Node) (source : FsPath)
    (config : Configuration) (now : Timestamp) (s d : FsPath)
    (rest : List (FsPath × FsPath))
    (htargets : config.targets = (s, d) :: rest)
    (hmissing : lookup fs (source ++ s) = none)
    (hnopfx : ¬((source ++ s) <+: ((config.path ++ [encodeName now]) ++ d)))
    (hcreate : createDirAll fs ((config.path ++ [encodeName now]) ++ d) = some fs1) :
    back_up_files fs source config now
      = (fs1, Except.error (BackupErr.copy (CopyErr.notFound (source ++ s)))) ∧
    isDir fs1 (config.path ++ [encodeName now]) = true := by
  have hlook : lookup fs1 (source ++ s) = none := by
    rw [createDirAll_lookup_outside _ fs fs1 hcreate _ hnopfx]
    exact hmissing
  constructor
  · simp only [back_up_files, htargets, copyTargets_cons, copyDirAll, hcreate, hlook]
  · exact createDirAll_isDir _ fs fs1 hcreate _ (List.prefix_append _ _)

/-- Witness for C10: a missing source root with an empty destination
leaves behind the freshly created snapshot directory. -/
theorem snapshot_missing_source_witness :
    (back_up_files (Node.dir [(['b'], Node.dir [])]) [['s']]
        ⟨[['b']], 0, [([['m']], [])], 10⟩ ⟨2024, 1, 1, 0, 0, 0⟩).2
      = Except.error (BackupErr.copy (CopyErr.notFound [['s'], ['m']])) ∧
    isDir
      (Node.dir [(['b'], Node.dir [(encodeName ⟨2024, 1, 1, 0, 0, 0⟩, Node.dir [])])])
      ([['b']] ++ [encodeName ⟨2024, 1, 1, 0, 0, 0⟩]) = true := by
  have h := snapshot_missing_source (Node.dir [(['b'], Node.dir [])])
    (Node.dir [(['b'], Node.dir [(encodeName ⟨2024, 1, 1, 0, 0, 0⟩, Node.dir [])])])
    [['s']] ⟨[['b']], 0, [([['m']], [])], 10⟩ ⟨2024, 1, 1, 0, 0, 0⟩
    [['m']] [] [] rfl rfl (by decide) rfl
  refine ⟨?_, h.2⟩
  rw [h.1]
  rfl


/-- C1 counterexample: with an empty target list the snapshot phase copies
nothing and creates no directory, yet `back_up_files` reports success; the
managed-snapshot count afterwards is 0, not
`min (previousCount + 1) maxSnapshots` = 1 as the claim requires
(configuration: destination root `[]`, no targets, `max_backups = 1`;
empty destination tree). -/
theorem retention_cex :
    (back_up_files (Node.dir []) [] ⟨[], 0, [], 1⟩ ⟨2024, 1, 1, 0, 0, 0⟩).2
      = Except.ok [encodeName ⟨2024, 1, 1, 0, 0, 0⟩] ∧
    get_backups_sorted (Node.dir []) ⟨[], 0, [], 1⟩ = Except.ok [] ∧
    get_backups_sorted
        (back_up_files (Node.dir []) [] ⟨[], 0, [], 1⟩ ⟨2024, 1, 1, 0, 0, 0⟩).1
        ⟨[], 0, [], 1⟩ = Except.ok [] ∧
    (0 : ℕ) ≠ min (0 + 1) 1 := by
  refine ⟨rfl, rfl, rfl, by decide⟩

/-- C1 (amended): with at least one target pair, a fresh valid snapshot
name, a decodable destination listing with distinct entry names, distinct
snapshot paths being guaranteed, and pairwise distinct timestamp keys, a
successful snapshot followed by the automatic prune removes exactly the
oldest `before.length + 1 - max_backups` snapshots in ascending timestamp
order (nothing when the count does not exceed `max_backups`), the
subsequent listing holds exactly the remaining most recent ones, and its
length is `min (before.length + 1) max_backups`. -/
theorem snapshot_then_prune_retention
    (fs fs1 : Node) (source : FsPath) (config : Configuration) (now : Timestamp)
    (l₀ : List (Name × Bool)) (raw before : List (Timestamp × FsPath))
    (s d : FsPath) (rest : List (FsPath × FsPath))
    (hmax : 1 ≤ config.max_backups)
    (htargets : config.targets = (s, d) :: rest)
    (hl : childSpecs fs config.path = some l₀)
    (hnd : (l₀.map Prod.fst).Nodup)
    (hraw : specCollect config.path l₀ = Except.ok raw)
    (hbefore : before = sortBackups raw)
    (hfresh : encodeName now ∉ l₀.map Prod.fst)
    (hvalid : validTimestamp now = true) (hyear : 0 ≤ now.year)
    (hcopy : copyTargets fs source (config.path ++ [encodeName now]) config.targets
      = (fs1, none))
    (hkeys : ((before ++ [(now, config.path ++ [encodeName now])]).map
      (fun e => e.1.key)).Nodup) :
    back_up_files fs source config now
      = ((remove_old_backups fs1 config).fs,
         Except.ok (config.path ++ [encodeName now])) ∧
    (remove_old_backups fs1 config).err = none ∧
    (remove_old_backups fs1 config).removed
      = ((sortBackups (before ++ [(now, config.path ++ [encodeName now])])).take
          (before.length + 1 - config.max_backups)).map Prod.snd ∧
    get_backups_sorted (remove_old_backups fs1 config).fs config
      = Except.ok
          ((sortBackups (before ++ [(now, config.path ++ [encodeName now])])).drop
            (before.length + 1 - config.max_backups)) ∧
    ((sortBackups (before ++ [(now, config.path ++ [encodeName now])])).drop
        (before.length + 1 - config.max_backups)).length
      = min (before.length + 1) config.max_backups ∧
    ∀ x ∈ (sortBackups (before ++ [(now, config.path ++ [encodeName now])])).take
        (before.length + 1 - config.max_backups),
      ∀ y ∈ (sortBackups (before ++ [(now, config.path ++ [encodeName now])])).drop
        (before.length + 1 - config.max_backups),
        x.1.key ≤ y.1.key := by
  have hcopy' := hcopy
  rw [htargets] at hcopy'
  have hl1 : childSpecs fs1 config.path
      = some (l₀ ++ [(encodeName now, true)]) :=
    copyTargets_childSpecs_fresh config.path (encodeName now) source s d rest fs fs1
      l₀ hcopy' hl hfresh
  have hnd1 : ((l₀ ++ [(encodeName now, true)]).map Prod.fst).Nodup := by
    simp only [List.map_append, List.map_cons, List.map_nil]
    rw [List.nodup_append]
    refine ⟨hnd, List.nodup_singleton _, ?_⟩
    intro a ha hb
    simp only [List.mem_singleton] at hb
    subst hb
    exact hfresh ha
  have hdec : decodeName (encodeName now) = DecodeOutcome.ok now :=
    decodeName_encodeName now hvalid hyear
  have hsingle : specCollect config.path [(encodeName now, true)]
      = Except.ok [(now, config.path ++ [encodeName now])] := by
    rw [specCollect_cons, if_pos rfl, hdec]
    rfl
  have hraw1 : specCollect config.path (l₀ ++ [(encodeName now, true)])
      = Except.ok (raw ++ [(now, config.path ++ [encodeName now])]) := by
    simp only [specCollect_append, hraw, hsingle]
  have hPerm_before : List.Perm before raw := by
    rw [hbefore]; exact sortBackups_perm raw
  have hPermPR : List.Perm (before ++ [(now, config.path ++ [encodeName now])])
      (raw ++ [(now, config.path ++ [encodeName now])]) :=
    hPerm_before.append_right _
  have hkeys_rawAll : ((raw ++ [(now, config.path ++ [encodeName now])]).map
      (fun e => e.1.key)).Nodup := ((hPermPR.map _).nodup_iff).mp hkeys
  have hsp : List.Perm
      (sortBackups (raw ++ [(now, config.path ++ [encodeName now])]))
      (sortBackups (before ++ [(now, config.path ++ [encodeName now])])) :=
    ((sortBackups_perm _).trans hPermPR.symm).trans (sortBackups_perm _).symm
  have hkeys_all : ((sortBackups (before ++ [(now, config.path ++ [encodeName now])])).map
      (fun e => e.1.key)).Nodup := (((sortBackups_perm _).map _).nodup_iff).mpr hkeys
  have hall_eq : sortBackups (raw ++ [(now, config.path ++ [encodeName now])])
      = sortBackups (before ++ [(now, config.path ++ [encodeName now])]) :=
    sorted_eq_of_perm_keys_nodup hsp (sortBackups_sorted _) (sortBackups_sorted _)
      (((hsp.map _).nodup_iff).mpr hkeys_all)
  have hlist1 : get_backups_sorted fs1 config
      = Except.ok (sortBackups (before ++ [(now, config.path ++ [encodeName now])])) := by
    rw [get_backups_sorted_eq_spec fs1 config _ hl1]
    simp only [hraw1]
    rw [hall_eq]
  have hpaths_rawAll : ((raw ++ [(now, config.path ++ [encodeName now])]).map
      Prod.snd).Nodup := by
    have hsub := specCollect_snd_sublist config.path _ _ hraw1
    refine hsub.nodup ?_
    have hcomp : (l₀ ++ [(encodeName now, true)]).map
          (fun e => config.path ++ [e.1])
        = ((l₀ ++ [(encodeName now, true)]).map Prod.fst).map
            (fun n => config.path ++ [n]) := by
      rw [List.map_map]
      rfl
    rw [hcomp]
    refine hnd1.map ?_
    intro a b hab
    have := List.append_cancel_left hab
    simpa using this
  have hpaths_all : ((sortBackups (before ++ [(now, config.path ++ [encodeName now])])).map
      Prod.snd).Nodup := by
    have h0 : ((sortBackups (raw ++ [(now, config.path ++ [encodeName now])])).map
        Prod.snd).Nodup := (((sortBackups_perm _).map _).nodup_iff).mpr hpaths_rawAll
    rwa [hall_eq] at h0
  have hlen_all : (sortBackups (before ++ [(now, config.path ++ [encodeName now])])).length
      = before.length + 1 := by
    rw [sortBackups_length, List.length_append, List.length_cons, List.length_nil]
  by_cases hcase : config.max_backups < before.length + 1
  · -- more snapshots than allowed: the oldest surplus is deleted
    have hALLperm : List.Perm
        (sortBackups (before ++ [(now, config.path ++ [encodeName now])]))
        (raw ++ [(now, config.path ++ [encodeName now])]) :=
      (sortBackups_perm _).trans hPermPR
    have hmemdel : ∀ e ∈ (sortBackups (before ++ [(now, config.path ++ [encodeName now])])).take
        (before.length + 1 - config.max_backups),
        e ∈ raw ++ [(now, config.path ++ [encodeName now])] := by
      intro e he
      exact hALLperm.subset (List.take_subset _ _ he)
    have hdelpaths : (((sortBackups (before ++ [(now, config.path ++ [encodeName now])])).take
        (before.length + 1 - config.max_backups)).map Prod.snd).Nodup := by
      rw [List.map_take]
      exact (List.take_sublist _ _).nodup hpaths_all
    obtain ⟨fs', l', hloop, hl', hnd', hr'⟩ :=
      removeLoop_spec config.path
        ((sortBackups (before ++ [(now, config.path ++ [encodeName now])])).take
          (before.length + 1 - config.max_backups))
        fs1 (l₀ ++ [(encodeName now, true)])
        (raw ++ [(now, config.path ++ [encodeName now])])
        hl1 hnd1 hraw1 hmemdel hdelpaths
    have hro : remove_old_backups fs1 config
        = ⟨fs', ((sortBackups (before ++ [(now, config.path ++ [encodeName now])])).take
            (before.length + 1 - config.max_backups)).map Prod.snd, none⟩ := by
      unfold remove_old_backups
      simp only [hlist1, hlen_all]
      rw [if_pos hcase]
      exact hloop
    have hfinal : get_backups_sorted fs' config
        = Except.ok ((sortBackups (before ++ [(now, config.path ++ [encodeName now])])).drop
            (before.length + 1 - config.max_backups)) := by
      rw [get_backups_sorted_eq_spec fs' config _ hl']
      simp only [hr']
      congr 1
      apply sorted_eq_of_perm_keys_nodup
      · refine (sortBackups_perm _).trans ?_
        have hfp : List.Perm
            ((raw ++ [(now, config.path ++ [encodeName now])]).filter
              (fun e => decide (e.2 ∉ ((sortBackups (before ++ [(now, config.path ++ [encodeName now])])).take
                (before.length + 1 - config.max_backups)).map Prod.snd)))
            ((sortBackups (before ++ [(now, config.path ++ [encodeName now])])).filter
              (fun e => decide (e.2 ∉ ((sortBackups (before ++ [(now, config.path ++ [encodeName now])])).take
                (before.length + 1 - config.max_backups)).map Prod.snd))) :=
          hALLperm.symm.filter _
        refine hfp.trans ?_
        rw [filter_not_mem_take_eq_drop _ _ hpaths_all]
      · exact sortBackups_sorted _
      · exact List.Pairwise.sublist (List.drop_sublist _ _) (sortBackups_sorted _)
      · refine (((sortBackups_perm _).map _).nodup_iff).mpr ?_
        refine ((List.filter_sublist _).map _).nodup ?_
        exact hkeys_rawAll
    have herr : (remove_old_backups fs1 config).err = none := by rw [hro]
    refine ⟨?_, herr, ?_, ?_, ?_, ?_⟩
    · show back_up_files fs source config now = _
      unfold back_up_files
      rw [hcopy]
      simp only [herr]
    · rw [hro]
    · rw [hro]
      exact hfinal
    · rw [List.length_drop, hlen_all]
      omega
    · intro x hx y hy
      have hsorted : List.Sorted tsLE
          (sortBackups (before ++ [(now, config.path ++ [encodeName now])])) :=
        sortBackups_sorted _
      have hpair : List.Pairwise tsLE
          ((sortBackups (before ++ [(now, config.path ++ [encodeName now])])).take
              (before.length + 1 - config.max_backups)
            ++ (sortBackups (before ++ [(now, config.path ++ [encodeName now])])).drop
              (before.length + 1 - config.max_backups)) := by
        rwa [List.take_append_drop]
      exact (List.pairwise_append.mp hpair).2.2 x hx y hy
  · -- at most max_backups snapshots: nothing is deleted
    have hk0 : before.length + 1 - config.max_backups = 0 := by omega
    have hro : remove_old_backups fs1 config = ⟨fs1, [], none⟩ := by
      unfold remove_old_backups
      simp only [hlist1, hlen_all]
      rw [if_neg hcase]
    have herr : (remove_old_backups fs1 config).err = none := by rw [hro]
    refine ⟨?_, herr, ?_, ?_, ?_, ?_⟩
    · show back_up_files fs source config now = _
      unfold back_up_files
      rw [hcopy]
      simp only [herr]
    · rw [hro, hk0]
      simp
    · rw [hro, hk0, List.drop_zero]
      exact hlist1
    · rw [hk0, List.drop_zero, hlen_all]
      omega
    · intro x hx y hy
      rw [hk0] at hx
      simp at hx

theorem snapshot_then_prune_retention_witness :
    (remove_old_backups
        (copyTargets
          (Node.dir [([ 'b' ], Node.dir
              [(encodeName ⟨2020, 1, 1, 0, 0, 0⟩, Node.dir []),
               (encodeName ⟨2021, 1, 1, 0, 0, 0⟩, Node.dir [])]),
            (['s'], Node.dir [(['f'], Node.file 0)])])
          [['s']]
          ([['b']] ++ [encodeName ⟨2024, 1, 1, 0, 0, 0⟩])
          [([['f']], [['f']])]).1
        ⟨[['b']], 0, [([['f']], [['f']])], 2⟩).err = none := by
  have h := snapshot_then_prune_retention
    (Node.dir [([ 'b' ], Node.dir
        [(encodeName ⟨2020, 1, 1, 0, 0, 0⟩, Node.dir []),
         (encodeName ⟨2021, 1, 1, 0, 0, 0⟩, Node.dir [])]),
      (['s'], Node.dir [(['f'], Node.file 0)])])
    ((copyTargets
        (Node.dir [([ 'b' ], Node.dir
            [(encodeName ⟨2020, 1, 1, 0, 0, 0⟩, Node.dir []),
             (encodeName ⟨2021, 1, 1, 0, 0, 0⟩, Node.dir [])]),
          (['s'], Node.dir [(['f'], Node.file 0)])])
        [['s']]
        ([['b']] ++ [encodeName ⟨2024, 1, 1, 0, 0, 0⟩])
        [([['f']], [['f']])]).1)
    [['s']]
    ⟨[['b']], 0, [([['f']], [['f']])], 2⟩
    ⟨2024, 1, 1, 0, 0, 0⟩
    [(encodeName ⟨2020, 1, 1, 0, 0, 0⟩, true),
     (encodeName ⟨2021, 1, 1, 0, 0, 0⟩, true)]
    [(⟨2020, 1, 1, 0, 0, 0⟩, [['b']] ++ [encodeName ⟨2020, 1, 1, 0, 0, 0⟩]),
     (⟨2021, 1, 1, 0, 0, 0⟩, [['b']] ++ [encodeName ⟨2021, 1, 1, 0, 0, 0⟩])]
    (sortBackups
      [(⟨2020, 1, 1, 0, 0, 0⟩, [['b']] ++ [encodeName ⟨2020, 1, 1, 0, 0, 0⟩]),
       (⟨2021, 1, 1, 0, 0, 0⟩, [['b']] ++ [encodeName ⟨2021, 1, 1, 0, 0, 0⟩])])
    [['f']] [['f']] []
    (by decide) rfl rfl (by decide) rfl rfl (by decide) (by decide) (by decide)
    rfl (by decide)
  exact h.2.1

end Crucible
